import Mathlib

/-!
Verification of the difftrack diff-algebra engine: a shallow embedding of the
sequence/mapping diff records, the listeners, the dispatcher, the bounded
handler and the offline compaction and squash functions, together with proofs
of the specified properties.
-/

set_option maxHeartbeats 1600000

namespace Difftrack

/-- Sequence diff kinds, from difftrack/types.py (class ListDiff). -/
inductive ListDiff : Type
  | INSERT
  | REPLACE
  | DELETE
deriving DecidableEq, Repr

/-- Mapping diff kinds, from difftrack/types.py (class DictDiff). -/
inductive DictDiff : Type
  | SET
  | DELETE
deriving DecidableEq, Repr

/-- A sequence diff record (dtype, index, data), as in types.py: Diff = Tuple[DiffType, IndexType, DataType].
Indices are the non-negative integers of the spec data model. -/
abbrev Diff (α : Type) := ListDiff × Nat × α

/-- Replay one sequence diff on a sequence, with the bounds required by the
spec data model: INSERT needs i ≤ length, REPLACE and DELETE need i < length;
out-of-bounds application is an error (none). -/
def applyListDiff (s : List α) : Diff α → Option (List α)
  | (ListDiff.INSERT, i, v) => if i ≤ s.length then some (s.insertIdx i v) else none
  | (ListDiff.REPLACE, i, v) => if i < s.length then some (s.set i v) else none
  | (ListDiff.DELETE, i, _) => if i < s.length then some (s.eraseIdx i) else none

/-- Replay a list of sequence diffs left to right; none as soon as one is out of bounds. -/
def applyListDiffs : List (Diff α) → List α → Option (List α)
  | [], s => some s
  | d :: ds, s =>
    match applyListDiff s d with
    | some s' => applyListDiffs ds s'
    | none => none

/-! ## Sequence compaction (compaction.py: compact_list_diffs and helpers) -/

/-- State threaded through compact_list_diffs: the output list so far and the
helper map from current effective producer position to index in the output
list (op_index_to_compacted_index), embedded as a function Nat to Option Nat. -/
structure CompactState (α : Type) : Type where
  compacted : List (Diff α)
  opIndexToCompactedIndex : Nat → Option Nat

/-- compaction.py _append_op: append the op at the end of the compacted list and
rewrite the helper map. A DELETE shifts the keys above its index down by one, an
INSERT shifts the keys at or above its index up by one; then the op index is
bound to the new slot. -/
def appendOp (op : Diff α) (st : CompactState α) : CompactState α :=
  let m := st.opIndexToCompactedIndex
  let opIndex := op.2.1
  let m' : Nat → Option Nat :=
    if op.1 = ListDiff.DELETE then
      fun k => if k < opIndex then m k else m (k + 1)
    else if op.1 = ListDiff.INSERT then
      fun k => if k < opIndex then m k else if k = opIndex then none else m (k - 1)
    else m
  { compacted := st.compacted ++ [op]
    opIndexToCompactedIndex := fun k => if k = opIndex then some st.compacted.length else m' k }

/-- compaction.py _remove_from_compacted: drop the given slot from the compacted
list and decrement every helper-map slot at or above it. -/
def removeFromCompacted (index : Nat) (st : CompactState α) : CompactState α :=
  { compacted := st.compacted.eraseIdx index
    opIndexToCompactedIndex := fun k =>
      (st.opIndexToCompactedIndex k).map (fun j => if index ≤ j then j - 1 else j) }

/-- Walk of compaction.py _update_compacted_on_delete over the entries after the
removed INSERT: the running deletedOpIndex follows later INSERTs and DELETEs and
every entry whose index is at or above the running value has its index
decremented. -/
def updateCompactedTail (deletedOpIndex : Nat) : List (Diff α) → List (Diff α)
  | [] => []
  | (dtype, idx, v) :: rest =>
    let d' :=
      if dtype = ListDiff.INSERT ∧ idx ≤ deletedOpIndex then deletedOpIndex + 1
      else if dtype = ListDiff.DELETE ∧ idx < deletedOpIndex then deletedOpIndex - 1
      else deletedOpIndex
    (if d' ≤ idx then (dtype, idx - 1, v) else (dtype, idx, v)) :: updateCompactedTail d' rest

/-- compaction.py _update_compacted_on_delete: entries at or before the removed
position are untouched, the tail is rewritten by the running walk. -/
def updateCompactedOnDelete (deletedOpIndex positionInCompacted : Nat)
    (compacted : List (Diff α)) : List (Diff α) :=
  compacted.take (positionInCompacted + 1) ++
    updateCompactedTail deletedOpIndex (compacted.drop (positionInCompacted + 1))

/-- compaction.py _perform_replace: pair [INSERT, REPLACE] or [REPLACE, REPLACE]
by overwriting the earlier payload, otherwise append. The out-of-range lookup
arm is unreachable (every stored slot is in range; Python would raise). -/
def performReplace (op : Diff α) (st : CompactState α) : CompactState α :=
  match st.opIndexToCompactedIndex op.2.1 with
  | none => appendOp op st
  | some p =>
    match st.compacted[p]? with
    | none => appendOp op st
    | some (ListDiff.DELETE, _, _) => appendOp op st
    | some (rk, ri, _) => { st with compacted := st.compacted.set p (rk, ri, op.2.2) }

/-- compaction.py _perform_delete: pair [INSERT, DELETE] (drop the INSERT and
rewrite the tail) or [REPLACE, DELETE] (drop the REPLACE, append the DELETE);
unpaired DELETEs and DELETE-on-DELETE are appended. The out-of-range lookup arm
is unreachable (every stored slot is in range; Python would raise). -/
def performDelete (op : Diff α) (st : CompactState α) : CompactState α :=
  let i := op.2.1
  match st.opIndexToCompactedIndex i with
  | none => appendOp op st
  | some p =>
    match st.compacted[p]? with
    | none => appendOp op st
    | some (ListDiff.DELETE, _, _) => appendOp op st
    | some (ListDiff.REPLACE, _, _) =>
      let st1 := removeFromCompacted p st
      let st2 : CompactState α :=
        { st1 with opIndexToCompactedIndex := fun k =>
            if k = i then none else st1.opIndexToCompactedIndex k }
      appendOp op st2
    | some (ListDiff.INSERT, deletedOpIdx, _) =>
      let st1 := removeFromCompacted p
        { st with compacted := updateCompactedOnDelete deletedOpIdx p st.compacted }
      let m1 : Nat → Option Nat := fun k =>
        if k = i then none else st1.opIndexToCompactedIndex k
      { compacted := st1.compacted
        opIndexToCompactedIndex := fun k => if k < i then m1 k else m1 (k + 1) }

/-- One step of the compact_list_diffs loop, dispatching on the diff kind. -/
def compactStep (st : CompactState α) (op : Diff α) : CompactState α :=
  match op.1 with
  | ListDiff.INSERT => appendOp op st
  | ListDiff.REPLACE => performReplace op st
  | ListDiff.DELETE => performDelete op st

/-- compaction.py compact_list_diffs: fold the steps over the diff list starting
from an empty output and an empty helper map. -/
def compact_list_diffs (diffs : List (Diff α)) : List (Diff α) :=
  (diffs.foldl compactStep ⟨[], fun _ => none⟩).compacted

/-! ## Mapping compaction (compaction.py: compact_dict_diffs) -/

/-- A mapping diff record (dtype, key, data). The payload is an Option because
DELETE records carry None. -/
abbrev DDiff (κ δ : Type) := DictDiff × κ × Option δ

/-- Value stored while folding compact_dict_diffs: either the last SET payload
or the tombstone sentinel marking a DELETE. -/
inductive CompactedValue (δ : Type) : Type
  | val (v : Option δ)
  | tombstone
deriving DecidableEq, Repr

/-- Insertion-order-preserving update of the compacted dict: overwrite the value
if the key is present (keeping its position), else append, as a Python dict
assignment does. -/
def upsertEntry [DecidableEq κ] :
    List (κ × CompactedValue δ) → κ → CompactedValue δ → List (κ × CompactedValue δ)
  | [], k, w => [(k, w)]
  | (k', w') :: rest, k, w =>
    if k' = k then (k', w) :: rest else (k', w') :: upsertEntry rest k w

/-- One step of the compact_dict_diffs fold: SET stores the payload, DELETE
stores the tombstone, both keyed by the diff's key. -/
def compactDictStep [DecidableEq κ] (acc : List (κ × CompactedValue δ))
    (d : DDiff κ δ) : List (κ × CompactedValue δ) :=
  match d with
  | (DictDiff.SET, key, data) => upsertEntry acc key (CompactedValue.val data)
  | (DictDiff.DELETE, key, _) => upsertEntry acc key CompactedValue.tombstone

/-- The dict built by the compact_dict_diffs fold. -/
def compactDictEntries [DecidableEq κ] (diffs : List (DDiff κ δ)) :
    List (κ × CompactedValue δ) :=
  diffs.foldl compactDictStep []

/-- Emission of one surviving compacted-dict entry as a diff record: a DELETE
with payload None for a tombstone, a SET carrying the stored payload otherwise. -/
def renderEntry (e : κ × CompactedValue δ) : DDiff κ δ :=
  match e.2 with
  | CompactedValue.tombstone => (DictDiff.DELETE, e.1, none)
  | CompactedValue.val v => (DictDiff.SET, e.1, v)

/-- compaction.py compact_dict_diffs: fold the diffs keyed by key, then emit one
record per surviving entry in first-touch order. -/
def compact_dict_diffs [DecidableEq κ] (diffs : List (DDiff κ δ)) : List (DDiff κ δ) :=
  (compactDictEntries diffs).map renderEntry

/-- listeners.py DictListener._apply_diff: SET assigns, DELETE removes and is an
error (KeyError, modelled as none) when the key is absent. The snapshot is a map
from keys to stored payloads. -/
def DictListener.applyDiff [DecidableEq κ] (data : κ → Option (Option δ)) :
    DDiff κ δ → Option (κ → Option (Option δ))
  | (DictDiff.SET, key, v) => some (fun k => if k = key then some v else data k)
  | (DictDiff.DELETE, key, _) =>
    match data key with
    | some _ => some (fun k => if k = key then none else data k)
    | none => none

/-- Replay a list of mapping diffs through DictListener._apply_diff; none as
soon as one application raises. -/
def applyDictDiffs [DecidableEq κ] :
    List (DDiff κ δ) → (κ → Option (Option δ)) → Option (κ → Option (Option δ))
  | [], m => some m
  | d :: ds, m =>
    match DictListener.applyDiff m d with
    | some m' => applyDictDiffs ds m'
    | none => none

/-! ## Squash (compaction.py: squash_list_diffs and _squash_single_list_diffs_sequence) -/

/-- types.py SquashResults: a range record (operation, start, stop, payload). -/
structure SquashResults (α : Type) : Type where
  operation : ListDiff
  start : Nat
  stop : Nat
  payload : List α
deriving DecidableEq, Repr

/-- compaction.py _squash_single_list_diffs_sequence on the nonempty batch
first :: rest: INSERT gets stop = start + n - 1 and the n payloads, REPLACE gets
stop = start + n and the n payloads, DELETE gets stop = start + n and no payload. -/
def squashSingleSequence (first : Diff α) (rest : List (Diff α)) : SquashResults α :=
  let payload := (first :: rest).map (fun d => d.2.2)
  match first.1 with
  | ListDiff.INSERT => ⟨ListDiff.INSERT, first.2.1, first.2.1 + payload.length - 1, payload⟩
  | ListDiff.REPLACE => ⟨ListDiff.REPLACE, first.2.1, first.2.1 + payload.length, payload⟩
  | ListDiff.DELETE => ⟨ListDiff.DELETE, first.2.1, first.2.1 + (first :: rest).length, []⟩

/-- The merge predicate of squash_list_diffs, comparing the incoming diff with
the last diff of the current batch: same kind, and consecutive indices for
INSERT and REPLACE but the same index for DELETE. -/
def mergePred (prev next : Diff α) : Bool :=
  if next.1 = prev.1 then
    match next.1 with
    | ListDiff.INSERT => prev.2.1 + 1 = next.2.1
    | ListDiff.DELETE => prev.2.1 = next.2.1
    | ListDiff.REPLACE => prev.2.1 + 1 = next.2.1
  else false

/-- Loop of squash_list_diffs: the current batch is first :: restAcc and last is
its final element; mergeable diffs extend the batch, otherwise the batch is
flushed through _squash_single_list_diffs_sequence. -/
def squashAux (first : Diff α) (restAcc : List (Diff α)) (last : Diff α) :
    List (Diff α) → List (SquashResults α)
  | [] => [squashSingleSequence first restAcc]
  | d :: ds =>
    if mergePred last d then squashAux first (restAcc ++ [d]) d ds
    else squashSingleSequence first restAcc :: squashAux d [] d ds

/-- compaction.py squash_list_diffs: empty input yields nothing, otherwise run
the batching loop seeded with the first diff. -/
def squash_list_diffs : List (Diff α) → List (SquashResults α)
  | [] => []
  | d :: ds => squashAux d [] d ds

/-- Replication of a diff kind over ascending indices, one diff per payload
entry. -/
def expandFrom (k : ListDiff) (s : Nat) : List (Option γ) → List (Diff (Option γ))
  | [] => []
  | v :: vs => (k, s, v) :: expandFrom k (s + 1) vs

/-- Expansion of one RangeOp back to its constituent diffs, inverting the range
encoding: INSERT and REPLACE replicate their kind over the ascending indices
starting at start, one diff per payload entry; DELETE deletes the half-open
range of positions [start, stop), which a sequence realizes as stop - start
repeated DELETEs at start with payload None. -/
def expandSquashResult (r : SquashResults (Option γ)) : List (Diff (Option γ)) :=
  match r.operation with
  | ListDiff.INSERT => expandFrom ListDiff.INSERT r.start r.payload
  | ListDiff.REPLACE => expandFrom ListDiff.REPLACE r.start r.payload
  | ListDiff.DELETE =>
    List.replicate (r.stop - r.start) (ListDiff.DELETE, r.start, none)

/-- The merge-chain property of a batch accumulated by squash_list_diffs: every
diff satisfies the merge predicate against its predecessor. -/
def MergeChain (first : Diff α) (rest : List (Diff α)) : Prop :=
  List.Chain (fun a b => mergePred a b = true) first rest

/-! ## Listener (listeners.py: class Listener) -/

/-- State of a listener: the applied snapshot (self._data) and the pending
buffer of diffs received but not yet applied (self._new_diffs). The snapshot
type and the diff type are parameters, as in the generic base class. -/
structure ListenerState (σ δ : Type) : Type where
  data : σ
  newDiffs : List δ

/-- listeners.py Listener.__call__: receiving a diff appends it to the pending
buffer (the optional on_change callback does not alter the state). -/
def Listener.call (st : ListenerState σ δ) (d : δ) : ListenerState σ δ :=
  { st with newDiffs := st.newDiffs ++ [d] }

/-- listeners.py Listener.get_new_diffs: return the pending diffs, apply each of
them to the snapshot in order, and clear the buffer. The abstract per-diff
application _apply_diff is a parameter. -/
def Listener.getNewDiffs (applyD : σ → δ → σ) (st : ListenerState σ δ) :
    List δ × ListenerState σ δ :=
  (st.newDiffs, { data := st.newDiffs.foldl applyD st.data, newDiffs := [] })

/-- listeners.py Listener.has_changed: true iff the pending buffer is nonempty. -/
def Listener.hasChanged (st : ListenerState σ δ) : Bool :=
  !st.newDiffs.isEmpty

/-- listeners.py ListListener._apply_diff: INSERT uses Python list.insert, which
clamps an index beyond the end (the non-negative case); REPLACE and DELETE raise
IndexError (none) out of range. -/
def ListListener.applyDiff (data : List α) : Diff α → Option (List α)
  | (ListDiff.INSERT, i, v) => some (data.insertIdx (min i data.length) v)
  | (ListDiff.REPLACE, i, v) => if i < data.length then some (data.set i v) else none
  | (ListDiff.DELETE, i, _) => if i < data.length then some (data.eraseIdx i) else none

/-- Apply a list of buffered diffs to a ListListener snapshot in order, as
get_new_diffs does; none if some application raises. -/
def ListListener.materializeFrom (data : List α) : List (Diff α) → Option (List α)
  | [] => some data
  | d :: ds =>
    match ListListener.applyDiff data d with
    | some data' => ListListener.materializeFrom data' ds
    | none => none

/-- The materialized view of a ListListener: the snapshot after applying the
whole pending buffer. -/
def ListListener.materialize (st : ListenerState (List α) (Diff α)) : Option (List α) :=
  ListListener.materializeFrom st.data st.newDiffs

/-! ## Mapper adapter (utils.py: data_mapper) -/

/-- utils.py data_mapper: wrap a listener so that the data argument of every
inbound diff is transformed by the mapper; kind and index pass through. -/
def data_mapper (mapper : α → β) (listener : ListDiff × ι × β → σ) :
    ListDiff × ι × α → σ :=
  fun d => listener (d.1, d.2.1, mapper d.2.2)

/-- dispatchers.py ListDispatcher.__delitem__: a positional delete emits the
diff (DELETE, index, None). -/
def ListDispatcher.delitemDiff (index : Nat) : Diff (Option γ) :=
  (ListDiff.DELETE, index, none)

/-! ## Bounded handler (utils.py: class BoundedListDiffHandler) -/

/-- State of utils.py BoundedListDiffHandler: the wrapped ListListener, the
bound, the private shadow copy of the full list (self._full_list) and the
running length counter (self._listener_len, a Python int). -/
structure BoundedListDiffHandler (α : Type) : Type where
  listener : ListenerState (List α) (Diff α)
  maxSize : Nat
  fullList : List α
  listenerLen : Int

/-- Body of utils.py BoundedListDiffHandler.__call__ after the shadow update
produced fullList'. An in-bound diff is forwarded, then INSERT trims with a
synthesized DELETE at maxSize when the running length would exceed the bound
(the Python payload None is rendered as default), and DELETE re-expands with a
synthesized INSERT of the shadow element at maxSize - 1 when the running length
dropped below the bound while the shadow can still fill it. The out-of-range
shadow lookup arm is unreachable under the guard. -/
def BoundedListDiffHandler.callWith [Inhabited α] (h : BoundedListDiffHandler α)
    (d : Diff α) (fullList' : List α) : Option (BoundedListDiffHandler α) :=
  if d.2.1 < h.maxSize then
      let listener1 := Listener.call h.listener d
      match d.1 with
      | ListDiff.INSERT =>
        if h.listenerLen + 1 > (h.maxSize : Int) then
          some { h with
            listener := Listener.call listener1 (ListDiff.DELETE, h.maxSize, default)
            fullList := fullList'
            listenerLen := h.listenerLen + 1 - 1 }
        else
          some { h with
            listener := listener1
            fullList := fullList'
            listenerLen := h.listenerLen + 1 }
      | ListDiff.DELETE =>
        if h.listenerLen - 1 < (h.maxSize : Int) ∧ h.maxSize ≤ fullList'.length then
          match fullList'[h.maxSize - 1]? with
          | some v =>
            some { h with
              listener := Listener.call listener1 (ListDiff.INSERT, h.maxSize - 1, v)
              fullList := fullList'
              listenerLen := h.listenerLen - 1 + 1 }
          | none => none
        else
          some { h with
            listener := listener1
            fullList := fullList'
            listenerLen := h.listenerLen - 1 }
      | ListDiff.REPLACE =>
        some { h with listener := listener1, fullList := fullList' }
    else
      some { h with fullList := fullList' }

/-- utils.py BoundedListDiffHandler.__call__: apply the inbound diff to the
shadow full list first (exactly as ListListener._apply_diff would), then
forward and synthesize through callWith. -/
def BoundedListDiffHandler.call [Inhabited α] (h : BoundedListDiffHandler α)
    (d : Diff α) : Option (BoundedListDiffHandler α) :=
  match ListListener.applyDiff h.fullList d with
  | none => none
  | some fullList' => h.callWith d fullList'

/-- Feed a list of inbound edits through BoundedListDiffHandler.__call__. -/
def BoundedListDiffHandler.run [Inhabited α] (h : BoundedListDiffHandler α) :
    List (Diff α) → Option (BoundedListDiffHandler α)
  | [] => some h
  | d :: ds =>
    match h.call d with
    | some h' => h'.run ds
    | none => none

/-! ## Dispatcher (dispatchers.py: class Dispatcher) -/

/-- One delivery round of Dispatcher.apply_diff: the popped diff is handed to
every registered listener in registration order. The trace records (listener
position, diff) pairs. -/
def deliverBlock (listeners : List (δ → List δ)) (d : δ) : List (Nat × δ) :=
  (List.range listeners.length).map (fun i => (i, d))

/-- The diffs re-entrantly emitted while one diff is delivered: each listener in
registration order appends the nested apply_diff arguments to the FIFO queue. -/
def emittedOn (listeners : List (δ → List δ)) (d : δ) : List δ :=
  (listeners.map (fun l => l d)).flatten

/-- dispatchers.py Dispatcher.apply_diff drain loop. Each listener is modelled
by the list of diffs it re-entrantly emits on receiving a diff; those nested
apply_diff calls only enqueue (and bump the recursion counter, whose overflow
at 10 aborts), and the outermost frame keeps popping the FIFO queue until it is
empty. The result is the full delivery trace. -/
def drainFrom (listeners : List (δ → List δ)) : List δ → Nat → Option (List (Nat × δ))
  | [], _ => some []
  | d :: rest, counter =>
    if _h : counter + (emittedOn listeners d).length ≤ 10 then
      (drainFrom listeners (rest ++ emittedOn listeners d)
          (counter + (emittedOn listeners d).length)).map
        (fun tr => deliverBlock listeners d ++ tr)
    else none
  termination_by q c => q.length + (10 - c)
  decreasing_by simp only [List.length_append, List.length_cons]; omega

/-- An outermost Dispatcher.apply_diff call: the new diff is enqueued, the
recursion counter moves from 0 to 1, and the queue is drained. -/
def Dispatcher.applyDiffDrain (listeners : List (δ → List δ)) (d : δ) :
    Option (List (Nat × δ)) :=
  drainFrom listeners [d] 1

/-- dispatchers.py Dispatcher.add_listener collects listener.finalize_batch into
self._batch_finalizers when the listener advertises one. Listeners are given as
their positions in registration order, flagged by whether they advertise the
hook. -/
def collectBatchFinalizers (hooks : List Bool) : List Nat :=
  (hooks.enum.filter (fun p => p.2)).map (fun p => p.1)

/-- Effect of the edits admitted in one scope on self._should_finalize: every
outermost apply_diff sets it to True. -/
def Dispatcher.applyEditsFlag (flag : Bool) (edits : List ε) : Bool :=
  edits.foldl (fun _ _ => true) flag

/-- dispatchers.py Dispatcher.finalize_batch: when the flag is set, every
collected finalizer fires and the flag is reset. Returns the fired hooks and the
new flag. -/
def Dispatcher.finalizeBatch (hooks : List Bool) (flag : Bool) : List Nat × Bool :=
  if flag then (collectBatchFinalizers hooks, false) else ([], flag)

/-- One scoped batch: the with-statement body admits the given edits and
__exit__ calls finalize_batch. -/
def Dispatcher.runScope (hooks : List Bool) (flag : Bool) (edits : List ε) :
    List Nat × Bool :=
  Dispatcher.finalizeBatch hooks (Dispatcher.applyEditsFlag flag edits)

/-- A dispatcher used as a scoped batch: every edit happens inside some scope;
the scopes run in order and each reports which finalizer hooks fired on its
exit. -/
def Dispatcher.runScopes (hooks : List Bool) (flag : Bool) :
    List (List ε) → List (List Nat)
  | [] => []
  | es :: rest =>
    let r := Dispatcher.runScope hooks flag es
    r.1 :: Dispatcher.runScopes hooks r.2 rest

/-! ## Characterizations used by the proofs (not part of the embedding) -/

/-- The compacted-dict value a single mapping diff stores for its own key. -/
def touchValue (d : DDiff κ δ) : CompactedValue δ :=
  match d.1 with
  | DictDiff.SET => CompactedValue.val d.2.2
  | DictDiff.DELETE => CompactedValue.tombstone

/-- The last diff of the list touching the key, rendered as a compacted-dict
value; none when the key is untouched. -/
def lastTouch [DecidableEq κ] : List (DDiff κ δ) → κ → Option (CompactedValue δ)
  | [], _ => none
  | d :: ds, k =>
    match lastTouch ds k with
    | some e => some e
    | none => if d.2.1 = k then some (touchValue d) else none

/-- First-match lookup in an association list (Python dict lookup; keys are
unique in every list we use it on). -/
def listLookup [DecidableEq κ] : List (κ × W) → κ → Option W
  | [], _ => none
  | (k', w) :: rest, k => if k' = k then some w else listLookup rest k

/-- Net effect of an optional last-touch on the initial value a key maps to:
untouched keeps the initial value, a SET yields its payload, a tombstone
removes the key. -/
def applyTouch (t : Option (CompactedValue δ)) (v0 : Option (Option δ)) :
    Option (Option δ) :=
  match t with
  | none => v0
  | some (CompactedValue.val v) => some v
  | some CompactedValue.tombstone => none

/-! ## Symbolic cell semantics used by the compaction proof (not part of the
embedding). A cell is either an untouched element of the initial sequence,
tagged by its original position, or a payload written by some diff. Replaying
diffs over cells tracks exactly which final positions hold which payloads,
uniformly in the initial sequence. -/

/-- A symbolic sequence element: Sum.inl k is the element at position k of the
initial sequence, Sum.inr v is a written payload. -/
abbrev Cell (α : Type) := Nat ⊕ α

/-- One diff applied to a symbolic sequence, with the spec bounds. -/
def applyCellOp (op : Diff α) (U : List (Cell α)) : Option (List (Cell α)) :=
  match op with
  | (ListDiff.INSERT, i, v) =>
    if i ≤ U.length then some (U.insertIdx i (Sum.inr v)) else none
  | (ListDiff.REPLACE, i, v) =>
    if i < U.length then some (U.set i (Sum.inr v)) else none
  | (ListDiff.DELETE, i, _) =>
    if i < U.length then some (U.eraseIdx i) else none

/-- Replay a diff list over a symbolic sequence. -/
def cellsFrom : List (Diff α) → List (Cell α) → Option (List (Cell α))
  | [], U => some U
  | op :: ops, U =>
    match applyCellOp op U with
    | some U' => cellsFrom ops U'
    | none => none

/-- The canonical symbolic initial sequence of a given length. -/
def canonCells (L : Nat) : List (Cell α) :=
  (List.range L).map Sum.inl

/-- The symbolic final state of a diff list over an initial sequence of the
given length. -/
def cells (Z : List (Diff α)) (L : Nat) : Option (List (Cell α)) :=
  cellsFrom Z (canonCells L)

/-- The shape of a diff: its kind and index, forgetting the payload. -/
def dropPayload (d : Diff α) : ListDiff × Nat :=
  (d.1, d.2.1)

/-- Position tracking of one element through a shaped diff list: the element is
at position d; an INSERT at or left of it shifts it right, a DELETE strictly
left of it shifts it left, and the run is undefined if some diff lands on the
element itself (a REPLACE or DELETE at d) or a DELETE lands immediately left of
it (which clobbers the helper-map binding in the algorithm). -/
def trackRun : List (ListDiff × Nat) → Nat → Option Nat
  | [], d => some d
  | (k, a) :: rest, d =>
    match k with
    | ListDiff.INSERT => trackRun rest (if a ≤ d then d + 1 else d)
    | ListDiff.REPLACE => if a = d then none else trackRun rest d
    | ListDiff.DELETE =>
      if a = d ∨ a + 1 = d then none
      else trackRun rest (if a < d then d - 1 else d)

/-- The total running-index walk of _update_compacted_on_delete at the shape
level: how the deleted op index evolves past one shaped record. -/
def walkD : List (ListDiff × Nat) → Nat → Nat
  | [], d => d
  | (k, a) :: rest, d =>
    walkD rest
      (if k = ListDiff.INSERT ∧ a ≤ d then d + 1
       else if k = ListDiff.DELETE ∧ a < d then d - 1
       else d)

/-- The helper-map binding invariant of the compaction loop: the bound slot
exists, and unless it holds a DELETE record, the position of its output element
tracks from its stored index through the shapes of the later records to exactly
the binding key. -/
def BindingOk (Y : List (Diff α)) (i j : Nat) : Prop :=
  ∃ op, Y[j]? = some op ∧
    (op.1 = ListDiff.DELETE ∨
      trackRun ((Y.drop (j + 1)).map dropPayload) op.2.1 = some i)

/-- The loop invariant of compact_list_diffs: the compacted list replays to the
same symbolic cells as the processed prefix on every initial length on which
the prefix replays at all, and every helper-map binding is sound. -/
def CompactInv (P : List (Diff α)) (st : CompactState α) : Prop :=
  (∀ L, (cells P L).isSome → cells st.compacted L = cells P L) ∧
  ∀ i j, st.opIndexToCompactedIndex i = some j → BindingOk st.compacted i j

/-- Pointwise relation between a symbolic cell and a concrete element for a
fixed initial sequence. -/
def CellRel (S0 : List α) : Cell α → α → Prop
  | Sum.inl k, x => S0[k]? = some x
  | Sum.inr v, x => v = x

/-- Relation between a symbolic sequence and a concrete sequence. -/
def CellsRel (S0 : List α) (U : List (Cell α)) (T : List α) : Prop :=
  U.length = T.length ∧
    ∀ (p : Nat) (c : Cell α) (x : α), U[p]? = some c → T[p]? = some x → CellRel S0 c x

/-! Sanity checks of the embedding against the repository's own test cases. -/

example : compact_list_diffs
    [(ListDiff.INSERT, 0, 10), (ListDiff.DELETE, 0, 0)] = ([] : List (Diff Nat)) := by decide

example : compact_list_diffs
    [(ListDiff.INSERT, 0, 1), (ListDiff.INSERT, 0, 2), (ListDiff.INSERT, 0, 3),
     (ListDiff.DELETE, 1, 0)] =
    [(ListDiff.INSERT, 0, 1), (ListDiff.INSERT, 0, 3)] := by decide

example : compact_list_diffs
    [(ListDiff.INSERT, 0, 1), (ListDiff.INSERT, 0, 2), (ListDiff.INSERT, 0, 3),
     (ListDiff.REPLACE, 1, 4)] =
    [(ListDiff.INSERT, 0, 1), (ListDiff.INSERT, 0, 4), (ListDiff.INSERT, 0, 3)] := by decide

example : compact_list_diffs
    [(ListDiff.REPLACE, 3, 10), (ListDiff.INSERT, 2, 20), (ListDiff.INSERT, 2, 30),
     (ListDiff.REPLACE, 5, 40)] =
    [(ListDiff.REPLACE, 3, 40), (ListDiff.INSERT, 2, 20), (ListDiff.INSERT, 2, 30)] := by decide

example : compact_list_diffs
    [(ListDiff.INSERT, 0, 10), (ListDiff.INSERT, 0, 20), (ListDiff.DELETE, 0, 0),
     (ListDiff.REPLACE, 0, 30)] =
    [(ListDiff.INSERT, 0, 30)] := by decide

example : compact_list_diffs
    [(ListDiff.REPLACE, 1, 1), (ListDiff.DELETE, 1, 2)] =
    [(ListDiff.DELETE, 1, 2)] := by decide

example : compact_list_diffs
    [(ListDiff.DELETE, 0, 0), (ListDiff.REPLACE, 0, 4)] =
    [(ListDiff.DELETE, 0, 0), (ListDiff.REPLACE, 0, 4)] := by decide

example : applyListDiffs
    (compact_list_diffs
      [(ListDiff.INSERT, 0, 5), (ListDiff.INSERT, 0, 3), (ListDiff.INSERT, 1, 4),
       (ListDiff.DELETE, 0, 0)]) [] = some [4, 5] := by decide

example : compact_dict_diffs
    [(DictDiff.SET, 0, some 123), (DictDiff.SET, 1, some 456),
     (DictDiff.SET, 1, some 9999), (DictDiff.DELETE, 0, none)] =
    [(DictDiff.DELETE, 0, none), (DictDiff.SET, 1, some 9999)] := by decide

example : squash_list_diffs
    [(ListDiff.INSERT, 1, 1), (ListDiff.INSERT, 2, 2), (ListDiff.INSERT, 3, 3),
     (ListDiff.REPLACE, 1, 4), (ListDiff.DELETE, 1, 0)] =
    [⟨ListDiff.INSERT, 1, 3, [1, 2, 3]⟩, ⟨ListDiff.REPLACE, 1, 2, [4]⟩,
     ⟨ListDiff.DELETE, 1, 2, []⟩] := by decide

example : squash_list_diffs
    [(ListDiff.INSERT, 1, 1), (ListDiff.REPLACE, 1, 2), (ListDiff.DELETE, 1, 0),
     (ListDiff.DELETE, 1, 0), (ListDiff.DELETE, 1, 0)] =
    [⟨ListDiff.INSERT, 1, 1, [1]⟩, ⟨ListDiff.REPLACE, 1, 2, [2]⟩,
     ⟨ListDiff.DELETE, 1, 4, []⟩] := by decide

/-! ## Claim theorems -/

/-- C2: Insert-then-delete reindexing scenario. For the input
[INSERT(0,2), INSERT(0,3), INSERT(1,4), INSERT(0,7), INSERT(0,8), DELETE(2)],
applying the output of compact_list_diffs to the empty initial sequence
produces exactly [8, 7, 4, 2]. -/
theorem compact_insert_then_delete_reindexing :
    applyListDiffs
      (compact_list_diffs
        [(ListDiff.INSERT, 0, 2), (ListDiff.INSERT, 0, 3), (ListDiff.INSERT, 1, 4),
         (ListDiff.INSERT, 0, 7), (ListDiff.INSERT, 0, 8), (ListDiff.DELETE, 2, 10)]) [] =
    some [8, 7, 4, 2] := by decide

/-- C9: Absent-key DELETE raises. For every DictListener snapshot that does not
contain the key k, materializing a (DELETE, k, _) diff raises a key-not-found
error (modelled as none) that propagates to the caller. -/
theorem dict_delete_absent_key_raises [DecidableEq κ] (m : κ → Option (Option δ))
    (k : κ) (payload : Option δ) (h : m k = none) :
    DictListener.applyDiff m (DictDiff.DELETE, k, payload) = none := by
  simp [DictListener.applyDiff, h]

theorem dict_delete_absent_key_raises_witness :
    (fun _ => none : Nat → Option (Option Nat)) 0 = none ∧
      DictListener.applyDiff (fun _ => none : Nat → Option (Option Nat))
        (DictDiff.DELETE, 0, none) = none :=
  ⟨rfl, dict_delete_absent_key_raises (fun _ => none) 0 none rfl⟩

/-- C7: Deferred-application equivalence. For every listener state (snapshot D,
pending buffer B) and every per-diff application function, calling
get_new_diffs and then reading the snapshot equals reading the snapshot first
and then applying the diffs returned by get_new_diffs externally to it; the
returned diffs are exactly the buffer, and afterwards the buffer is empty and
has_changed is false. -/
theorem get_new_diffs_deferred_equivalence (applyD : σ → δ → σ)
    (st : ListenerState σ δ) :
    (Listener.getNewDiffs applyD st).2.data =
        ((Listener.getNewDiffs applyD st).1).foldl applyD st.data ∧
      (Listener.getNewDiffs applyD st).1 = st.newDiffs ∧
      (Listener.getNewDiffs applyD st).2.newDiffs = [] ∧
      Listener.hasChanged (Listener.getNewDiffs applyD st).2 = false :=
  ⟨rfl, rfl, rfl, rfl⟩

/-- C10: Mapper applied to every payload including DELETE. A listener wrapped by
data_mapper(f) forwards every diff (kind, i, v) as (kind, i, f v) to the inner
listener, uniformly in the kind; in particular the DELETE diff emitted by
ListDispatcher.__delitem__, whose payload is None, reaches the inner listener
with payload f None. -/
theorem data_mapper_maps_every_payload (mapper : Option γ → β)
    (listener : ListDiff × Nat × β → σ) :
    (∀ (k : ListDiff) (i : Nat) (v : Option γ),
        data_mapper mapper listener (k, i, v) = listener (k, i, mapper v)) ∧
      (∀ i : Nat,
        data_mapper mapper listener (ListDispatcher.delitemDiff i) =
          listener (ListDiff.DELETE, i, mapper none)) :=
  ⟨fun _ _ _ => rfl, fun _ => rfl⟩

theorem applyEditsFlag_true (es : List ε) : Dispatcher.applyEditsFlag true es = true := by
  induction es with
  | nil => rfl
  | cons e es ih => simpa [Dispatcher.applyEditsFlag] using ih

theorem applyEditsFlag_false_cons (e : ε) (es : List ε) :
    Dispatcher.applyEditsFlag false (e :: es) = true := by
  simpa [Dispatcher.applyEditsFlag] using applyEditsFlag_true es

/-- C8: Batch-finalization iff edits. For a dispatcher used as a scoped batch,
with every edit admitted inside some scope, each scope exit fires
finalize_batch on exactly the registered listeners that advertise the hook if
at least one edit was admitted in that scope, and on none of them otherwise. -/
theorem finalize_batch_iff_edits (hooks : List Bool) (scopes : List (List ε)) :
    Dispatcher.runScopes hooks false scopes =
      scopes.map (fun es => if es.isEmpty then [] else collectBatchFinalizers hooks) := by
  induction scopes with
  | nil => rfl
  | cons es rest ih =>
    cases es with
    | nil =>
      simpa [Dispatcher.runScopes, Dispatcher.runScope, Dispatcher.applyEditsFlag,
        Dispatcher.finalizeBatch] using ih
    | cons e es' =>
      simpa [Dispatcher.runScopes, Dispatcher.runScope, applyEditsFlag_false_cons,
        Dispatcher.finalizeBatch] using ih

/-! Proof of the mapping-compaction claim. -/

theorem listLookup_upsertEntry [DecidableEq κ] (acc : List (κ × CompactedValue δ))
    (key : κ) (w : CompactedValue δ) (k : κ) :
    listLookup (upsertEntry acc key w) k =
      if key = k then some w else listLookup acc k := by
  induction acc with
  | nil => simp [upsertEntry, listLookup]
  | cons hd tl ih =>
    obtain ⟨k', w'⟩ := hd
    by_cases h1 : k' = key
    · subst h1
      by_cases h2 : k' = k <;> simp [upsertEntry, listLookup, h2]
    · by_cases h2 : k' = k
      · subst h2
        have hkey : ¬ key = k' := fun h => h1 h.symm
        simp [upsertEntry, h1, listLookup, hkey]
      · simp [upsertEntry, h1, listLookup, h2, ih]

theorem compactDictStep_eq_upsert [DecidableEq κ] (acc : List (κ × CompactedValue δ))
    (d : DDiff κ δ) :
    compactDictStep acc d = upsertEntry acc d.2.1 (touchValue d) := by
  obtain ⟨t, key, data⟩ := d
  cases t <;> rfl

theorem listLookup_foldl_compactDictStep [DecidableEq κ] (diffs : List (DDiff κ δ)) :
    ∀ (acc : List (κ × CompactedValue δ)) (k : κ),
      listLookup (diffs.foldl compactDictStep acc) k =
        match lastTouch diffs k with
        | some e => some e
        | none => listLookup acc k := by
  induction diffs with
  | nil => intro acc k; simp [lastTouch]
  | cons d ds ih =>
    intro acc k
    rw [List.foldl_cons, ih, compactDictStep_eq_upsert, lastTouch]
    cases hds : lastTouch ds k with
    | some e => simp
    | none =>
      simp only
      rw [listLookup_upsertEntry]
      by_cases h : d.2.1 = k <;> simp [h]

theorem listLookup_compactDictEntries [DecidableEq κ] (diffs : List (DDiff κ δ)) (k : κ) :
    listLookup (compactDictEntries diffs) k = lastTouch diffs k := by
  rw [compactDictEntries, listLookup_foldl_compactDictStep]
  cases lastTouch diffs k <;> simp [listLookup]

theorem applyDictDiffs_char [DecidableEq κ] (diffs : List (DDiff κ δ)) :
    ∀ (M0 m : κ → Option (Option δ)), applyDictDiffs diffs M0 = some m →
      ∀ k, m k = applyTouch (lastTouch diffs k) (M0 k) := by
  induction diffs with
  | nil =>
    intro M0 m h k
    cases h
    simp [lastTouch, applyTouch]
  | cons d ds ih =>
    intro M0 m h k
    rw [applyDictDiffs] at h
    cases happ : DictListener.applyDiff M0 d with
    | none => rw [happ] at h; cases h
    | some m1 =>
      rw [happ] at h
      have hm := ih m1 m h k
      have hm1 : m1 k = applyTouch (if d.2.1 = k then some (touchValue d) else none) (M0 k) := by
        obtain ⟨t, key, data⟩ := d
        cases t with
        | SET =>
          cases happ
          by_cases hk : key = k
          · subst hk; simp [touchValue, applyTouch]
          · have : ¬ k = key := fun h => hk h.symm
            simp [touchValue, applyTouch, hk, this]
        | DELETE =>
          simp only [DictListener.applyDiff] at happ
          cases hM0 : M0 key with
          | none => rw [hM0] at happ; cases happ
          | some v0 =>
            rw [hM0] at happ
            cases happ
            by_cases hk : key = k
            · subst hk; simp [touchValue, applyTouch]
            · have : ¬ k = key := fun h => hk h.symm
              simp [touchValue, applyTouch, hk, this]
      rw [hm, lastTouch]
      cases hds : lastTouch ds k with
      | some e =>
        simp only
        rw [hm1]
        cases e <;> rfl
      | none => simpa using hm1

theorem listLookup_eq_none_of_not_mem [DecidableEq κ] (E : List (κ × W)) (k : κ)
    (h : k ∉ E.map Prod.fst) : listLookup E k = none := by
  induction E with
  | nil => rfl
  | cons e tl ih =>
    obtain ⟨k', w⟩ := e
    simp only [List.map_cons, List.mem_cons] at h
    push_neg at h
    have : ¬ k' = k := fun hh => h.1 hh.symm
    simp [listLookup, this, ih h.2]

theorem applyDictDiffs_render_char [DecidableEq κ] (E : List (κ × CompactedValue δ)) :
    ∀ (M0 m' : κ → Option (Option δ)), (E.map Prod.fst).Nodup →
      applyDictDiffs (E.map renderEntry) M0 = some m' →
      ∀ k, m' k = applyTouch (listLookup E k) (M0 k) := by
  induction E with
  | nil =>
    intro M0 m' _ h k
    cases h
    simp [listLookup, applyTouch]
  | cons e tl ih =>
    intro M0 m' hnd h k
    obtain ⟨k0, w0⟩ := e
    simp only [List.map_cons, List.nodup_cons] at hnd
    rw [List.map_cons, applyDictDiffs] at h
    cases happ : DictListener.applyDiff M0 (renderEntry (k0, w0)) with
    | none => rw [happ] at h; cases h
    | some m1 =>
      rw [happ] at h
      have hm := ih m1 m' hnd.2 h k
      have hm1 : m1 k = if k0 = k then applyTouch (some w0) (M0 k) else M0 k := by
        cases w0 with
        | val v =>
          simp only [renderEntry, DictListener.applyDiff] at happ
          cases happ
          by_cases hk : k0 = k
          · subst hk; simp [applyTouch]
          · have : ¬ k = k0 := fun hh => hk hh.symm
            simp [applyTouch, hk, this]
        | tombstone =>
          simp only [renderEntry, DictListener.applyDiff] at happ
          cases hM0 : M0 k0 with
          | none => rw [hM0] at happ; cases happ
          | some v0 =>
            rw [hM0] at happ
            cases happ
            by_cases hk : k0 = k
            · subst hk; simp [applyTouch]
            · have : ¬ k = k0 := fun hh => hk hh.symm
              simp [applyTouch, hk, this]
      by_cases hk : k0 = k
      · subst hk
        have hnot : listLookup tl k0 = none :=
          listLookup_eq_none_of_not_mem tl k0 hnd.1
        rw [hm, hnot]
        simp only [applyTouch]
        rw [hm1, if_pos rfl]
        simp only [listLookup, if_pos rfl]
        cases w0 <;> rfl
      · rw [hm, hm1, if_neg hk]
        simp [listLookup, hk]

theorem mem_keys_upsertEntry [DecidableEq κ] (acc : List (κ × CompactedValue δ))
    (key : κ) (w : CompactedValue δ) (k : κ) :
    k ∈ (upsertEntry acc key w).map Prod.fst ↔ k ∈ acc.map Prod.fst ∨ k = key := by
  induction acc with
  | nil => simp [upsertEntry]
  | cons e tl ih =>
    obtain ⟨k', w'⟩ := e
    by_cases h : k' = key
    · subst h
      have hup : upsertEntry ((k', w') :: tl) k' w = (k', w) :: tl := by
        simp [upsertEntry]
      rw [hup]
      simp only [List.map_cons, List.mem_cons]
      tauto
    · simp only [upsertEntry, if_neg h, List.map_cons, List.mem_cons, ih]
      tauto

theorem nodup_keys_upsertEntry [DecidableEq κ] (acc : List (κ × CompactedValue δ))
    (key : κ) (w : CompactedValue δ) (h : (acc.map Prod.fst).Nodup) :
    ((upsertEntry acc key w).map Prod.fst).Nodup := by
  induction acc with
  | nil => simp [upsertEntry]
  | cons e tl ih =>
    obtain ⟨k', w'⟩ := e
    simp only [List.map_cons, List.nodup_cons] at h
    by_cases hk : k' = key
    · subst hk
      simpa [upsertEntry, List.nodup_cons] using h
    · simp only [upsertEntry, if_neg hk, List.map_cons, List.nodup_cons]
      refine ⟨?_, ih h.2⟩
      rw [mem_keys_upsertEntry]
      rintro (hh | hh)
      · exact h.1 hh
      · exact hk hh

theorem nodup_keys_compactDictEntries [DecidableEq κ] (diffs : List (DDiff κ δ)) :
    ((compactDictEntries diffs).map Prod.fst).Nodup := by
  rw [compactDictEntries]
  have : ∀ (acc : List (κ × CompactedValue δ)), (acc.map Prod.fst).Nodup →
      ((diffs.foldl compactDictStep acc).map Prod.fst).Nodup := by
    induction diffs with
    | nil => intro acc h; exact h
    | cons d ds ih =>
      intro acc h
      rw [List.foldl_cons]
      exact ih _ (by rw [compactDictStep_eq_upsert]; exact nodup_keys_upsertEntry _ _ _ h)
  exact this [] (by simp)

theorem mem_keys_compactDictEntries [DecidableEq κ] (diffs : List (DDiff κ δ)) (k : κ) :
    k ∈ (compactDictEntries diffs).map Prod.fst → k ∈ diffs.map (fun d => d.2.1) := by
  rw [compactDictEntries]
  have : ∀ (acc : List (κ × CompactedValue δ)),
      k ∈ (diffs.foldl compactDictStep acc).map Prod.fst →
      k ∈ acc.map Prod.fst ∨ k ∈ diffs.map (fun d => d.2.1) := by
    induction diffs with
    | nil => intro acc h; exact Or.inl h
    | cons d ds ih =>
      intro acc h
      rw [List.foldl_cons] at h
      rcases ih _ h with hh | hh
      · rw [compactDictStep_eq_upsert, mem_keys_upsertEntry] at hh
        rcases hh with hh | hh
        · exact Or.inl hh
        · exact Or.inr (by simp [hh])
      · exact Or.inr (by simp [hh])
  intro h
  rcases this [] h with hh | hh
  · simp at hh
  · exact hh

theorem key_renderEntry (e : κ × CompactedValue δ) : (renderEntry e).2.1 = e.1 := by
  obtain ⟨k, w⟩ := e
  cases w <;> rfl

/-- C3 counterexample: the claim fails as stated. Compacting
[SET(0, 1), DELETE(0)] yields [DELETE(0)], and replaying that against the empty
initial mapping raises a key-not-found error, while replaying the original list
succeeds; the final mapping states are not identical. -/
theorem compact_dict_diffs_not_always_equal :
    applyDictDiffs [(DictDiff.SET, 0, some 1), (DictDiff.DELETE, 0, none)]
        (fun _ => none : Nat → Option (Option Nat)) ≠
      applyDictDiffs
        (compact_dict_diffs [(DictDiff.SET, 0, some 1), (DictDiff.DELETE, 0, none)])
        (fun _ => none : Nat → Option (Option Nat)) := by
  intro h
  have h1 : (applyDictDiffs [(DictDiff.SET, 0, some 1), (DictDiff.DELETE, 0, none)]
      (fun _ => none : Nat → Option (Option Nat))).isSome = true := rfl
  rw [h] at h1
  exact Bool.noConfusion h1

/-- C3 (amended): Mapping-compaction correctness on successful replays. For
every finite list of SET/DELETE mapping diffs and every initial mapping,
whenever replaying the list and replaying compact_dict_diffs of it both
succeed, they yield identical final mapping states; unconditionally, the
output contains at most one record per distinct key, hence its length is at
most the number of distinct keys touched. -/
theorem compact_dict_diffs_correct [DecidableEq κ] (diffs : List (DDiff κ δ))
    (M0 m m' : κ → Option (Option δ))
    (h : applyDictDiffs diffs M0 = some m)
    (h' : applyDictDiffs (compact_dict_diffs diffs) M0 = some m') :
    m = m' ∧
      ((compact_dict_diffs diffs).map (fun d => d.2.1)).Nodup ∧
      (compact_dict_diffs diffs).length ≤ ((diffs.map (fun d => d.2.1)).dedup).length := by
  have hkeys : (compact_dict_diffs diffs).map (fun d => d.2.1) =
      (compactDictEntries diffs).map Prod.fst := by
    rw [compact_dict_diffs, List.map_map]
    exact List.map_congr_left (fun e _ => key_renderEntry e)
  have hnd : ((compact_dict_diffs diffs).map (fun d => d.2.1)).Nodup := by
    rw [hkeys]; exact nodup_keys_compactDictEntries diffs
  refine ⟨?_, hnd, ?_⟩
  · funext k
    have hL := applyDictDiffs_char diffs M0 m h k
    have hR := applyDictDiffs_render_char (compactDictEntries diffs) M0 m'
      (nodup_keys_compactDictEntries diffs) (by rw [← compact_dict_diffs]; exact h') k
    rw [hL, hR, listLookup_compactDictEntries]
  · have hsub : (compact_dict_diffs diffs).map (fun d => d.2.1) ⊆
        (diffs.map (fun d => d.2.1)).dedup := by
      intro k hk
      rw [List.mem_dedup]
      exact mem_keys_compactDictEntries diffs k (hkeys ▸ hk)
    have := (hnd.subperm hsub).length_le
    simpa using this

theorem compact_dict_diffs_correct_witness :
    ((fun k => if k = 0 then some (some 1) else none) : Nat → Option (Option Nat)) =
        (fun k => if k = 0 then some (some 1) else none) ∧
      ((compact_dict_diffs [(DictDiff.SET, 0, some 1)]).map
        (fun d => d.2.1) : List Nat).Nodup ∧
      (compact_dict_diffs [(DictDiff.SET, (0 : Nat), (some 1 : Option Nat))]).length ≤
        (([(DictDiff.SET, (0 : Nat), (some 1 : Option Nat))].map (fun d => d.2.1)).dedup).length :=
  compact_dict_diffs_correct [(DictDiff.SET, 0, some 1)] (fun _ => none) _ _ rfl rfl

/-! Proof of the squash round-trip claim. -/

theorem mergePred_insert (s : Nat) (v : α) (d : Diff α)
    (h : mergePred (ListDiff.INSERT, s, v) d = true) :
    d.1 = ListDiff.INSERT ∧ d.2.1 = s + 1 := by
  obtain ⟨k, i, w⟩ := d
  cases k <;> simp [mergePred] at h ⊢
  omega

theorem mergePred_replace (s : Nat) (v : α) (d : Diff α)
    (h : mergePred (ListDiff.REPLACE, s, v) d = true) :
    d.1 = ListDiff.REPLACE ∧ d.2.1 = s + 1 := by
  obtain ⟨k, i, w⟩ := d
  cases k <;> simp [mergePred] at h ⊢
  omega

theorem mergePred_delete (s : Nat) (v : α) (d : Diff α)
    (h : mergePred (ListDiff.DELETE, s, v) d = true) :
    d.1 = ListDiff.DELETE ∧ d.2.1 = s := by
  obtain ⟨k, i, w⟩ := d
  cases k <;> simp [mergePred] at h ⊢
  omega

theorem expandFrom_insert_chain (rest : List (Diff (Option γ))) : ∀ (s : Nat) (v : Option γ),
    MergeChain (ListDiff.INSERT, s, v) rest →
    expandFrom ListDiff.INSERT s (((ListDiff.INSERT, s, v) :: rest).map (fun d => d.2.2)) =
      (ListDiff.INSERT, s, v) :: rest := by
  induction rest with
  | nil => intro s v _; rfl
  | cons d rest' ih =>
    intro s v hch
    obtain ⟨hd, hch'⟩ := List.chain_cons.mp hch
    obtain ⟨k, i, w⟩ := d
    obtain ⟨hk, hi⟩ := mergePred_insert s v _ hd
    simp only at hk hi
    subst hk
    subst hi
    rw [List.map_cons, expandFrom]
    exact congrArg _ (ih (s + 1) w hch')

theorem expandFrom_replace_chain (rest : List (Diff (Option γ))) : ∀ (s : Nat) (v : Option γ),
    MergeChain (ListDiff.REPLACE, s, v) rest →
    expandFrom ListDiff.REPLACE s (((ListDiff.REPLACE, s, v) :: rest).map (fun d => d.2.2)) =
      (ListDiff.REPLACE, s, v) :: rest := by
  induction rest with
  | nil => intro s v _; rfl
  | cons d rest' ih =>
    intro s v hch
    obtain ⟨hd, hch'⟩ := List.chain_cons.mp hch
    obtain ⟨k, i, w⟩ := d
    obtain ⟨hk, hi⟩ := mergePred_replace s v _ hd
    simp only at hk hi
    subst hk
    subst hi
    rw [List.map_cons, expandFrom]
    exact congrArg _ (ih (s + 1) w hch')

theorem replicate_delete_chain (rest : List (Diff (Option γ))) : ∀ (s : Nat) (v : Option γ),
    MergeChain (ListDiff.DELETE, s, v) rest →
    (∀ d ∈ (ListDiff.DELETE, s, v) :: rest, d.1 = ListDiff.DELETE → d.2.2 = none) →
    List.replicate (rest.length + 1) ((ListDiff.DELETE, s, none) : Diff (Option γ)) =
      (ListDiff.DELETE, s, v) :: rest := by
  induction rest with
  | nil =>
    intro s v _ hdel
    have hv : v = none := hdel (ListDiff.DELETE, s, v) (by simp) rfl
    subst hv
    rfl
  | cons d rest' ih =>
    intro s v hch hdel
    obtain ⟨hd, hch'⟩ := List.chain_cons.mp hch
    obtain ⟨k, i, w⟩ := d
    obtain ⟨hk, hi⟩ := mergePred_delete s v _ hd
    simp only at hk hi
    subst hk
    subst hi
    have hv : v = none := hdel (ListDiff.DELETE, i, v) (by simp) rfl
    subst hv
    have hdel' : ∀ e ∈ (ListDiff.DELETE, i, w) :: rest', e.1 = ListDiff.DELETE → e.2.2 = none := by
      intro e hmem hk
      exact hdel e (by simp [List.mem_cons] at hmem ⊢; tauto) hk
    have := ih i w hch' hdel'
    simp only [List.length_cons, List.replicate_succ]
    exact congrArg _ this

theorem expand_squashSingle (first : Diff (Option γ)) (restAcc : List (Diff (Option γ)))
    (hchain : MergeChain first restAcc)
    (hdel : ∀ d ∈ first :: restAcc, d.1 = ListDiff.DELETE → d.2.2 = none) :
    expandSquashResult (squashSingleSequence first restAcc) = first :: restAcc := by
  obtain ⟨k, s, v⟩ := first
  cases k with
  | INSERT =>
    have := expandFrom_insert_chain restAcc s v hchain
    simpa [squashSingleSequence, expandSquashResult] using this
  | REPLACE =>
    have := expandFrom_replace_chain restAcc s v hchain
    simpa [squashSingleSequence, expandSquashResult] using this
  | DELETE =>
    have := replicate_delete_chain restAcc s v hchain hdel
    simp only [squashSingleSequence, expandSquashResult]
    simpa using this

theorem mergeChain_append (d : Diff α) : ∀ (first : Diff α) (rest : List (Diff α)),
    MergeChain first rest →
    mergePred ((first :: rest).getLast (by simp)) d = true →
    MergeChain first (rest ++ [d]) := by
  intro first rest
  induction rest generalizing first with
  | nil =>
    intro _ hlast
    exact List.Chain.cons (by simpa using hlast) List.Chain.nil
  | cons e rest' ih =>
    intro hch hlast
    obtain ⟨h1, h2⟩ := List.chain_cons.mp hch
    refine List.Chain.cons h1 (ih e h2 ?_)
    simpa [List.getLast_cons] using hlast

theorem squashAux_expand (X : List (Diff (Option γ))) :
    ∀ (first : Diff (Option γ)) (restAcc : List (Diff (Option γ))) (last : Diff (Option γ)),
      MergeChain first restAcc →
      last = (first :: restAcc).getLast (by simp) →
      (∀ d ∈ first :: restAcc, d.1 = ListDiff.DELETE → d.2.2 = none) →
      (∀ d ∈ X, d.1 = ListDiff.DELETE → d.2.2 = none) →
      ((squashAux first restAcc last X).map expandSquashResult).flatten =
        (first :: restAcc) ++ X := by
  induction X with
  | nil =>
    intro first restAcc last hch _ hdelB _
    simp [squashAux, expand_squashSingle first restAcc hch hdelB]
  | cons d ds ih =>
    intro first restAcc last hch hlast hdelB hdelX
    rw [squashAux]
    by_cases hm : mergePred last d = true
    · rw [if_pos hm]
      have hch' : MergeChain first (restAcc ++ [d]) :=
        mergeChain_append d first restAcc hch (hlast ▸ hm)
      have hlast' : d = (first :: (restAcc ++ [d])).getLast (by simp) :=
        (List.getLast_concat (first :: restAcc)).symm
      have hdelB' : ∀ e ∈ first :: (restAcc ++ [d]), e.1 = ListDiff.DELETE → e.2.2 = none := by
        intro e hmem hk
        rcases List.mem_cons.mp hmem with h | h
        · exact hdelB e (by simp [h]) hk
        · rcases List.mem_append.mp h with h | h
          · exact hdelB e (by simp [h]) hk
          · simp only [List.mem_singleton] at h
            exact hdelX e (by simp [h]) hk
      have hdelX' : ∀ e ∈ ds, e.1 = ListDiff.DELETE → e.2.2 = none := by
        intro e hmem hk; exact hdelX e (by simp [hmem]) hk
      rw [ih first (restAcc ++ [d]) d hch' hlast' hdelB' hdelX']
      simp
    · rw [if_neg hm]
      have hdelX' : ∀ e ∈ ds, e.1 = ListDiff.DELETE → e.2.2 = none := by
        intro e hmem hk; exact hdelX e (by simp [hmem]) hk
      have hdeld : ∀ e ∈ [d], e.1 = ListDiff.DELETE → e.2.2 = none := by
        intro e hmem hk
        simp only [List.mem_singleton] at hmem
        exact hdelX e (by simp [hmem]) hk
      rw [List.map_cons, List.flatten_cons,
        expand_squashSingle first restAcc hch hdelB,
        ih d [] d List.Chain.nil rfl (by simpa using hdeld) hdelX']
      simp

theorem squashAux_mem_shape (X : List (Diff α)) :
    ∀ (first : Diff α) (restAcc : List (Diff α)) (last : Diff α)
      (r : SquashResults α), r ∈ squashAux first restAcc last X →
      ∃ f rest, r = squashSingleSequence f rest := by
  induction X with
  | nil =>
    intro first restAcc last r hr
    simp only [squashAux, List.mem_singleton] at hr
    exact ⟨first, restAcc, hr⟩
  | cons d ds ih =>
    intro first restAcc last r hr
    rw [squashAux] at hr
    by_cases hm : mergePred last d = true
    · rw [if_pos hm] at hr
      exact ih _ _ _ r hr
    · rw [if_neg hm] at hr
      rcases List.mem_cons.mp hr with h | h
      · exact ⟨first, restAcc, h⟩
      · exact ih _ _ _ r h

theorem squashSingleSequence_encoding (f : Diff α) (rest : List (Diff α)) :
    ((squashSingleSequence f rest).operation = ListDiff.INSERT →
      (squashSingleSequence f rest).stop =
        (squashSingleSequence f rest).start + (squashSingleSequence f rest).payload.length - 1) ∧
    ((squashSingleSequence f rest).operation = ListDiff.REPLACE →
      (squashSingleSequence f rest).stop =
        (squashSingleSequence f rest).start + (squashSingleSequence f rest).payload.length) ∧
    ((squashSingleSequence f rest).operation = ListDiff.DELETE →
      (squashSingleSequence f rest).payload = []) := by
  obtain ⟨k, s, v⟩ := f
  cases k <;> simp [squashSingleSequence]

/-- C4: Squash round-trip. Expanding each RangeOp produced by
squash_list_diffs back to constituent diffs (INSERT and REPLACE replicated over
ascending indices with the payload vector, DELETE deleting the half-open range
[start, stop) as repeated DELETEs at start) yields exactly the input, provided
the input follows the library convention of DELETE diffs carrying payload None;
moreover the range encoding is stop = start + n - 1 for an INSERT batch of n
and stop = start + n for REPLACE batches, while DELETE records carry no
payload. -/
theorem squash_round_trip (X : List (Diff (Option γ)))
    (hdel : ∀ d ∈ X, d.1 = ListDiff.DELETE → d.2.2 = none) :
    ((squash_list_diffs X).map expandSquashResult).flatten = X ∧
      ∀ r ∈ squash_list_diffs X,
        (r.operation = ListDiff.INSERT → r.stop = r.start + r.payload.length - 1) ∧
        (r.operation = ListDiff.REPLACE → r.stop = r.start + r.payload.length) ∧
        (r.operation = ListDiff.DELETE → r.payload = []) := by
  cases X with
  | nil => exact ⟨rfl, by intro r hr; cases hr⟩
  | cons d ds =>
    constructor
    · have hdeld : ∀ e ∈ [d], e.1 = ListDiff.DELETE → e.2.2 = none := by
        intro e hmem hk
        simp only [List.mem_singleton] at hmem
        exact hdel e (by simp [hmem]) hk
      have hdelds : ∀ e ∈ ds, e.1 = ListDiff.DELETE → e.2.2 = none := by
        intro e hmem hk; exact hdel e (by simp [hmem]) hk
      have := squashAux_expand ds d [] d List.Chain.nil rfl (by simpa using hdeld) hdelds
      simpa [squash_list_diffs] using this
    · intro r hr
      obtain ⟨f, rest, hshape⟩ :=
        squashAux_mem_shape ds d [] d r (by simpa [squash_list_diffs] using hr)
      subst hshape
      exact squashSingleSequence_encoding f rest

theorem squash_round_trip_witness :
    ((∀ d ∈ ([(ListDiff.INSERT, 1, some 7), (ListDiff.INSERT, 2, some 8),
        (ListDiff.DELETE, 1, none)] : List (Diff (Option Nat))),
        d.1 = ListDiff.DELETE → d.2.2 = none)) ∧
      ((squash_list_diffs [(ListDiff.INSERT, 1, some 7), (ListDiff.INSERT, 2, some 8),
          (ListDiff.DELETE, 1, (none : Option Nat))]).map expandSquashResult).flatten =
        [(ListDiff.INSERT, 1, some 7), (ListDiff.INSERT, 2, some 8),
         (ListDiff.DELETE, 1, none)] :=
  ⟨by decide, (squash_round_trip _ (by decide)).1⟩

/-! Proof of the re-entrant linearization claim. -/

theorem drainFrom_blocks (listeners : List (δ → List δ)) :
    ∀ (n : Nat) (queue : List δ) (counter : Nat) (trace : List (Nat × δ)),
      queue.length + (10 - counter) ≤ n →
      drainFrom listeners queue counter = some trace →
      ∃ ds : List δ, trace = (ds.map (deliverBlock listeners)).flatten ∧
        ∀ x ∈ queue, x ∈ ds := by
  intro n
  induction n with
  | zero =>
    intro queue counter trace hn hdrain
    have hq : queue = [] := by
      cases queue with
      | nil => rfl
      | cons d rest => simp at hn
    subst hq
    rw [drainFrom] at hdrain
    cases hdrain
    exact ⟨[], rfl, by simp⟩
  | succ n ih =>
    intro queue counter trace hn hdrain
    cases queue with
    | nil =>
      rw [drainFrom] at hdrain
      cases hdrain
      exact ⟨[], rfl, by simp⟩
    | cons d rest =>
      rw [drainFrom] at hdrain
      by_cases h : counter + (emittedOn listeners d).length ≤ 10
      · rw [dif_pos h] at hdrain
        cases hrec : drainFrom listeners (rest ++ emittedOn listeners d)
            (counter + (emittedOn listeners d).length) with
        | none => rw [hrec] at hdrain; cases hdrain
        | some tr' =>
          rw [hrec] at hdrain
          simp only [Option.map_some', Option.some.injEq] at hdrain
          have hmeas : (rest ++ emittedOn listeners d).length +
              (10 - (counter + (emittedOn listeners d).length)) ≤ n := by
            simp only [List.length_append]
            simp only [List.length_cons] at hn
            omega
          obtain ⟨ds, hds, hmem⟩ := ih _ _ _ hmeas hrec
          refine ⟨d :: ds, ?_, ?_⟩
          · rw [← hdrain, hds]; simp
          · intro x hx
            rcases List.mem_cons.mp hx with hx | hx
            · simp [hx]
            · have : x ∈ rest ++ emittedOn listeners d := List.mem_append_left _ hx
              exact List.mem_cons_of_mem _ (hmem x this)
      · rw [dif_neg h] at hdrain; cases hdrain

/-- C6: Re-entrant linearization. For a dispatcher with any list of registered
listeners (each modelled by the diffs it re-entrantly emits on a received
diff), if an outermost apply_diff of d completes with trace, then the trace
starts with the delivery of d to every listener in registration order, and the
rest of the trace consists of whole per-diff delivery rounds over a queue of
diffs drained by that same outermost frame in FIFO order; every diff d'
emitted by a registered listener while receiving d is among those later
rounds, so every listener receives d before any listener receives d'. -/
theorem reentrant_linearization (listeners : List (δ → List δ)) (d d' : δ) (a : Nat)
    (la : δ → List δ) (trace : List (Nat × δ))
    (hrun : Dispatcher.applyDiffDrain listeners d = some trace)
    (hla : listeners.get? a = some la) (hd' : d' ∈ la d) :
    ∃ ds : List δ,
      trace = deliverBlock listeners d ++ (ds.map (deliverBlock listeners)).flatten ∧
      d' ∈ ds := by
  rw [Dispatcher.applyDiffDrain, drainFrom] at hrun
  by_cases h : 1 + (emittedOn listeners d).length ≤ 10
  · rw [dif_pos h] at hrun
    cases hrec : drainFrom listeners ([] ++ emittedOn listeners d)
        (1 + (emittedOn listeners d).length) with
    | none => rw [hrec] at hrun; cases hrun
    | some tr' =>
      rw [hrec] at hrun
      simp only [Option.map_some', Option.some.injEq] at hrun
      obtain ⟨ds, hds, hmem⟩ := drainFrom_blocks listeners
        (([] ++ emittedOn listeners d).length +
          (10 - (1 + (emittedOn listeners d).length))) _ _ _ le_rfl hrec
      refine ⟨ds, ?_, ?_⟩
      · rw [← hrun, hds]
      · have hmemd' : d' ∈ emittedOn listeners d := by
          rw [emittedOn, List.mem_flatten]
          exact ⟨la d, List.mem_map_of_mem _ (List.get?_mem hla), hd'⟩
        exact hmem d' (by simpa using hmemd')
  · rw [dif_neg h] at hrun; cases hrun

theorem reentrant_linearization_witness :
    ∃ ds : List Nat,
      [(0, 0), (1, 0), (0, 5), (1, 5)] =
          deliverBlock [fun x => if x = 0 then [5] else [], fun _ => []] 0 ++
            (ds.map (deliverBlock [fun x => if x = 0 then [5] else [], fun _ => []])).flatten ∧
      5 ∈ ds := by
  refine reentrant_linearization
    [fun x => if x = 0 then [5] else [], fun _ => []] 0 5 0
    (fun x => if x = 0 then [5] else []) [(0, 0), (1, 0), (0, 5), (1, 5)] ?_ rfl (by simp)
  rw [Dispatcher.applyDiffDrain, drainFrom]
  norm_num [emittedOn, deliverBlock]
  rw [drainFrom]
  norm_num [emittedOn, deliverBlock]
  rw [drainFrom]
  norm_num [List.range_succ, deliverBlock]

/-! List index toolkit used for the bounded handler and compaction proofs. -/

theorem getElem?_insertIdx_le (l : List β) (x : β) (n : Nat) (hn : n ≤ l.length) :
    ∀ k, (l.insertIdx n x)[k]? =
      if k < n then l[k]? else if k = n then some x else l[k - 1]? := by
  induction l generalizing n with
  | nil =>
    have hn0 : n = 0 := Nat.le_zero.mp hn
    subst hn0
    intro k
    cases k <;> simp [List.insertIdx_zero]
  | cons a l ih =>
    intro k
    cases n with
    | zero =>
      cases k <;> simp [List.insertIdx_zero]
    | succ m =>
      rw [List.insertIdx_succ_cons]
      cases k with
      | zero => simp
      | succ j =>
        simp only [List.getElem?_cons_succ]
        rw [ih m (Nat.le_of_succ_le_succ hn) j]
        by_cases h1 : j < m
        · simp [h1, Nat.succ_lt_succ h1]
        · by_cases h2 : j = m
          · simp [h1, h2]
          · have hj : ¬ j + 1 < m + 1 := by omega
            have hj2 : ¬ j + 1 = m + 1 := by omega
            cases j with
            | zero => omega
            | succ j' => simp [h1, h2, hj, hj2]

theorem take_succ_eraseIdx (l : List β) (m : Nat) :
    (l.take (m + 1)).eraseIdx m = l.take m := by
  apply List.ext_getElem?
  intro k
  rw [List.getElem?_eraseIdx]
  by_cases h : k < m
  · simp [List.getElem?_take, h, Nat.lt_succ_of_lt h]
  · have h1 : ¬ k + 1 < m + 1 := by omega
    simp [List.getElem?_take, h, h1]

theorem take_insertIdx_of_lt (F : List β) (i m : Nat) (v : β) (him : i < m)
    (hil : i ≤ F.length) :
    (F.take m).insertIdx i v = (F.insertIdx i v).take (m + 1) := by
  have hil' : i ≤ (F.take m).length := by
    rw [List.length_take]; omega
  apply List.ext_getElem?
  intro k
  have L1 := getElem?_insertIdx_le (F.take m) v i hil' k
  have L2 := getElem?_insertIdx_le F v i hil k
  simp only [List.getElem?_take] at L1 L2 ⊢
  rw [L1, L2]
  split_ifs <;> first | rfl | omega

theorem take_insertIdx_of_le (F : List β) (i m : Nat) (v : β) (hmi : m ≤ i) :
    (F.insertIdx i v).take m = F.take m := by
  by_cases hil : i ≤ F.length
  · apply List.ext_getElem?
    intro k
    rw [List.getElem?_take, List.getElem?_take]
    by_cases hk : k < m
    · rw [if_pos hk, if_pos hk, getElem?_insertIdx_le F v i hil k,
        if_pos (by omega : k < i)]
    · rw [if_neg hk, if_neg hk]
  · rw [List.insertIdx_of_length_lt _ _ _ (by omega : F.length < i)]

theorem take_eraseIdx_of_le (F : List β) (i m : Nat) (hmi : m ≤ i) :
    (F.eraseIdx i).take m = F.take m := by
  apply List.ext_getElem?
  intro k
  rw [List.getElem?_take, List.getElem?_take]
  by_cases hk : k < m
  · rw [if_pos hk, if_pos hk, List.getElem?_eraseIdx, if_pos (by omega : k < i)]
  · rw [if_neg hk, if_neg hk]

theorem take_eraseIdx_of_lt (F : List β) (i m : Nat) (him : i < m) :
    (F.take m).eraseIdx i = (F.eraseIdx i).take (m - 1) := by
  apply List.ext_getElem?
  intro k
  simp only [List.getElem?_eraseIdx, List.getElem?_take]
  split_ifs <;> first | rfl | omega

theorem set_take_comm (F : List β) (i m : Nat) (v : β) :
    (F.set i v).take m = (F.take m).set i v :=
  List.set_take

theorem set_of_le_length (l : List β) (i : Nat) (v : β) (h : l.length ≤ i) :
    l.set i v = l := by
  apply List.ext_getElem?
  intro k
  rw [List.getElem?_set]
  by_cases hk : i = k
  · subst hk
    rw [if_pos rfl, if_neg (by omega)]
    exact (List.getElem?_eq_none h).symm
  · rw [if_neg hk]

/-! Materialization lemmas for the listener buffer. -/

theorem materializeFrom_append (buf : List (Diff α)) :
    ∀ (data : List α) (d : Diff α),
      ListListener.materializeFrom data (buf ++ [d]) =
        (ListListener.materializeFrom data buf).bind
          (fun l => ListListener.applyDiff l d) := by
  induction buf with
  | nil =>
    intro data d
    show (match ListListener.applyDiff data d with
      | some data' => ListListener.materializeFrom data' []
      | none => none) = ListListener.applyDiff data d
    cases ListListener.applyDiff data d <;> rfl
  | cons e buf' ih =>
    intro data d
    show (match ListListener.applyDiff data e with
      | some data' => ListListener.materializeFrom data' (buf' ++ [d])
      | none => none) =
      ((match ListListener.applyDiff data e with
        | some data' => ListListener.materializeFrom data' buf'
        | none => none).bind (fun l => ListListener.applyDiff l d))
    cases ListListener.applyDiff data e with
    | none => rfl
    | some data' => exact ih data' d

theorem materialize_call (st : ListenerState (List α) (Diff α)) (d : Diff α) :
    ListListener.materialize (Listener.call st d) =
      (ListListener.materialize st).bind (fun l => ListListener.applyDiff l d) :=
  materializeFrom_append st.newDiffs st.data d

theorem applyListDiff_imp_listener (s : List α) (d : Diff α) (s' : List α)
    (h : applyListDiff s d = some s') : ListListener.applyDiff s d = some s' := by
  obtain ⟨k, i, v⟩ := d
  cases k with
  | INSERT =>
    simp only [applyListDiff] at h
    by_cases hi : i ≤ s.length
    · rw [if_pos hi] at h
      simp only [ListListener.applyDiff]
      rw [Nat.min_eq_left hi]
      exact h
    · rw [if_neg hi] at h; cases h
  | REPLACE => exact h
  | DELETE => exact h

/-! Proof of the bounded-prefix invariant claim. -/

theorem boundedCall_step [Inhabited α] (h : BoundedListDiffHandler α)
    (hmax : 1 ≤ h.maxSize)
    (hmat : ListListener.materialize h.listener = some (h.fullList.take h.maxSize))
    (hlen : h.listenerLen = ((min h.fullList.length h.maxSize : Nat) : Int))
    (d : Diff α) (F' : List α) (hvalid : applyListDiff h.fullList d = some F') :
    ∃ h', h.call d = some h' ∧ h'.maxSize = h.maxSize ∧ h'.fullList = F' ∧
      ListListener.materialize h'.listener = some (F'.take h.maxSize) ∧
      h'.listenerLen = ((min F'.length h.maxSize : Nat) : Int) := by
  have hcall : h.call d = h.callWith d F' := by
    rw [BoundedListDiffHandler.call, applyListDiff_imp_listener _ _ _ hvalid]
  rw [hcall]
  obtain ⟨k, i, v⟩ := d
  cases k with
  | INSERT =>
    simp only [applyListDiff] at hvalid
    by_cases hiF : i ≤ h.fullList.length
    case neg => rw [if_neg hiF] at hvalid; cases hvalid
    rw [if_pos hiF] at hvalid
    have hF' : h.fullList.insertIdx i v = F' := Option.some.inj hvalid
    have hlenF' : F'.length = h.fullList.length + 1 := by
      rw [← hF']; exact List.length_insertIdx i _ hiF
    by_cases him : i < h.maxSize
    · have hiT : i ≤ (h.fullList.take h.maxSize).length := by
        rw [List.length_take]; omega
      have happ1 : ListListener.applyDiff (h.fullList.take h.maxSize)
          (ListDiff.INSERT, i, v) =
          some ((h.fullList.take h.maxSize).insertIdx i v) := by
        simp only [ListListener.applyDiff]
        rw [Nat.min_eq_left hiT]
      by_cases htrim : h.listenerLen + 1 > (h.maxSize : Int)
      · have hFmax : h.maxSize ≤ h.fullList.length := by
          rw [hlen] at htrim
          by_contra hc
          push_neg at hc
          have hm : min h.fullList.length h.maxSize = h.fullList.length := by omega
          rw [hm] at htrim
          omega
        have hlenT' : ((h.fullList.take h.maxSize).insertIdx i v).length =
            h.maxSize + 1 := by
          rw [List.length_insertIdx _ _ hiT, List.length_take]; omega
        have happ2 : ListListener.applyDiff
            ((h.fullList.take h.maxSize).insertIdx i v)
            (ListDiff.DELETE, h.maxSize, (default : α)) =
            some (((h.fullList.take h.maxSize).insertIdx i v).eraseIdx h.maxSize) := by
          simp only [ListListener.applyDiff]
          rw [if_pos (by omega)]
        refine ⟨⟨Listener.call (Listener.call h.listener (ListDiff.INSERT, i, v)) (ListDiff.DELETE, h.maxSize, default), h.maxSize, F', h.listenerLen + 1 - 1⟩, ?_, ?_, ?_, ?_, ?_⟩
        · simp only [BoundedListDiffHandler.callWith]
          rw [if_pos him, if_pos htrim]
        · rfl
        · rfl
        · rw [materialize_call, materialize_call, hmat, Option.some_bind, happ1,
            Option.some_bind, happ2]
          rw [take_insertIdx_of_lt _ _ _ _ him hiF, hF', take_succ_eraseIdx]
        · show h.listenerLen + 1 - 1 = _
          rw [hlen]
          have h1 : min h.fullList.length h.maxSize = h.maxSize := by omega
          have h2 : min F'.length h.maxSize = h.maxSize := by omega
          rw [h1, h2]
          ring
      · have hFmax : h.fullList.length < h.maxSize := by
          rw [hlen] at htrim
          by_contra hc
          push_neg at hc
          have hm : min h.fullList.length h.maxSize = h.maxSize := by omega
          rw [hm] at htrim
          omega
        refine ⟨⟨Listener.call h.listener (ListDiff.INSERT, i, v), h.maxSize, F', h.listenerLen + 1⟩, ?_, ?_, ?_, ?_, ?_⟩
        · simp only [BoundedListDiffHandler.callWith]
          rw [if_pos him, if_neg htrim]
        · rfl
        · rfl
        · rw [materialize_call, hmat, Option.some_bind, happ1]
          rw [List.take_of_length_le (by omega : h.fullList.length ≤ h.maxSize), hF']
          rw [List.take_of_length_le (by omega : F'.length ≤ h.maxSize)]
        · show h.listenerLen + 1 = _
          rw [hlen]
          have h1 : min h.fullList.length h.maxSize = h.fullList.length := by omega
          have h2 : min F'.length h.maxSize = F'.length := by omega
          rw [h1, h2, hlenF']
          push_cast
          ring
    · have hFmax : h.maxSize ≤ h.fullList.length := by omega
      refine ⟨⟨h.listener, h.maxSize, F', h.listenerLen⟩, ?_, ?_, ?_, ?_, ?_⟩
      · simp only [BoundedListDiffHandler.callWith]
        rw [if_neg him]
      · rfl
      · rfl
      · show ListListener.materialize h.listener = _
        rw [hmat, ← hF', take_insertIdx_of_le _ _ _ _ (by omega)]
      · show h.listenerLen = _
        rw [hlen]
        have h1 : min h.fullList.length h.maxSize = h.maxSize := by omega
        have h2 : min F'.length h.maxSize = h.maxSize := by omega
        rw [h1, h2]
  | REPLACE =>
    simp only [applyListDiff] at hvalid
    by_cases hiF : i < h.fullList.length
    case neg => rw [if_neg hiF] at hvalid; cases hvalid
    rw [if_pos hiF] at hvalid
    have hF' : h.fullList.set i v = F' := Option.some.inj hvalid
    have hlenF' : F'.length = h.fullList.length := by
      rw [← hF', List.length_set]
    by_cases him : i < h.maxSize
    · have happ1 : ListListener.applyDiff (h.fullList.take h.maxSize)
          (ListDiff.REPLACE, i, v) =
          some ((h.fullList.take h.maxSize).set i v) := by
        simp only [ListListener.applyDiff]
        rw [if_pos (by rw [List.length_take]; omega)]
      refine ⟨⟨Listener.call h.listener (ListDiff.REPLACE, i, v), h.maxSize, F', h.listenerLen⟩, ?_, ?_, ?_, ?_, ?_⟩
      · simp only [BoundedListDiffHandler.callWith]
        rw [if_pos him]
      · rfl
      · rfl
      · rw [materialize_call, hmat, Option.some_bind, happ1, ← hF', set_take_comm]
      · show h.listenerLen = _
        rw [hlen, hlenF']
    · refine ⟨⟨h.listener, h.maxSize, F', h.listenerLen⟩, ?_, ?_, ?_, ?_, ?_⟩
      · simp only [BoundedListDiffHandler.callWith]
        rw [if_neg him]
      · rfl
      · rfl
      · show ListListener.materialize h.listener = _
        rw [hmat, ← hF', set_take_comm,
          set_of_le_length _ _ _ (by rw [List.length_take]; omega)]
      · show h.listenerLen = _
        rw [hlen, hlenF']
  | DELETE =>
    simp only [applyListDiff] at hvalid
    by_cases hiF : i < h.fullList.length
    case neg => rw [if_neg hiF] at hvalid; cases hvalid
    rw [if_pos hiF] at hvalid
    have hF' : h.fullList.eraseIdx i = F' := Option.some.inj hvalid
    have hlenF' : F'.length = h.fullList.length - 1 := by
      rw [← hF', List.length_eraseIdx, if_pos hiF]
    by_cases him : i < h.maxSize
    · have happ1 : ListListener.applyDiff (h.fullList.take h.maxSize)
          (ListDiff.DELETE, i, v) =
          some ((h.fullList.take h.maxSize).eraseIdx i) := by
        simp only [ListListener.applyDiff]
        rw [if_pos (by rw [List.length_take]; omega)]
      have hcond1 : h.listenerLen - 1 < (h.maxSize : Int) := by
        rw [hlen]
        have hmm : (min h.fullList.length h.maxSize : Nat) ≤ h.maxSize := by omega
        push_cast
        omega
      by_cases hexp : h.maxSize ≤ F'.length
      · have hgetlt : h.maxSize - 1 < F'.length := by omega
        have hget : F'[h.maxSize - 1]? = some (F'.get ⟨h.maxSize - 1, hgetlt⟩) := by
          rw [List.getElem?_eq_getElem hgetlt]
          rfl
        have hT1 : (h.fullList.take h.maxSize).eraseIdx i = F'.take (h.maxSize - 1) := by
          rw [take_eraseIdx_of_lt _ _ _ him, hF']
        have hlenT1 : ((h.fullList.take h.maxSize).eraseIdx i).length = h.maxSize - 1 := by
          rw [hT1, List.length_take]; omega
        have happ2 : ListListener.applyDiff ((h.fullList.take h.maxSize).eraseIdx i)
            (ListDiff.INSERT, h.maxSize - 1, F'.get ⟨h.maxSize - 1, hgetlt⟩) =
            some (F'.take h.maxSize) := by
          simp only [ListListener.applyDiff]
          rw [hlenT1, Nat.min_self]
          set x := F'.get ⟨h.maxSize - 1, hgetlt⟩ with hxdef
          rw [show h.maxSize - 1 = ((h.fullList.take h.maxSize).eraseIdx i).length from
            hlenT1.symm, List.insertIdx_length_self, hT1]
          have hstep : F'.take (h.maxSize - 1) ++ [x] = F'.take (h.maxSize - 1 + 1) := by
            rw [List.take_succ, hget]
            rfl
          rw [hstep, show h.maxSize - 1 + 1 = h.maxSize by omega]
        refine ⟨⟨Listener.call (Listener.call h.listener (ListDiff.DELETE, i, v)) (ListDiff.INSERT, h.maxSize - 1, F'.get ⟨h.maxSize - 1, hgetlt⟩), h.maxSize, F', h.listenerLen - 1 + 1⟩, ?_, ?_, ?_, ?_, ?_⟩
        · simp only [BoundedListDiffHandler.callWith]
          rw [if_pos him, if_pos ⟨hcond1, hexp⟩, hget]
        · rfl
        · rfl
        · rw [materialize_call, materialize_call, hmat, Option.some_bind, happ1,
            Option.some_bind, happ2]
        · show h.listenerLen - 1 + 1 = _
          rw [hlen]
          have h1 : min h.fullList.length h.maxSize = h.maxSize := by omega
          have h2 : min F'.length h.maxSize = h.maxSize := by omega
          rw [h1, h2]
          ring
      · have hFle : h.fullList.length ≤ h.maxSize := by omega
        refine ⟨⟨Listener.call h.listener (ListDiff.DELETE, i, v), h.maxSize, F', h.listenerLen - 1⟩, ?_, ?_, ?_, ?_, ?_⟩
        · simp only [BoundedListDiffHandler.callWith]
          rw [if_pos him, if_neg (by push_neg; intro _; omega)]
        · rfl
        · rfl
        · rw [materialize_call, hmat, Option.some_bind, happ1]
          rw [List.take_of_length_le hFle, hF',
            List.take_of_length_le (by omega : F'.length ≤ h.maxSize)]
        · show h.listenerLen - 1 = _
          rw [hlen]
          have h1 : min h.fullList.length h.maxSize = h.fullList.length := by omega
          have h2 : min F'.length h.maxSize = F'.length := by omega
          rw [h1, h2, hlenF']
          omega
    · have hFmax : h.maxSize < h.fullList.length := by omega
      refine ⟨⟨h.listener, h.maxSize, F', h.listenerLen⟩, ?_, ?_, ?_, ?_, ?_⟩
      · simp only [BoundedListDiffHandler.callWith]
        rw [if_neg him]
      · rfl
      · rfl
      · show ListListener.materialize h.listener = _
        rw [hmat, ← hF', take_eraseIdx_of_le _ _ _ (by omega)]
      · show h.listenerLen = _
        rw [hlen]
        have h1 : min h.fullList.length h.maxSize = h.maxSize := by omega
        have h2 : min F'.length h.maxSize = h.maxSize := by omega
        rw [h1, h2]

theorem boundedRun_invariant [Inhabited α] (edits : List (Diff α)) :
    ∀ (h : BoundedListDiffHandler α), 1 ≤ h.maxSize →
      ListListener.materialize h.listener = some (h.fullList.take h.maxSize) →
      h.listenerLen = ((min h.fullList.length h.maxSize : Nat) : Int) →
      (applyListDiffs edits h.fullList).isSome →
      ∃ h', h.run edits = some h' ∧ h'.maxSize = h.maxSize ∧
        applyListDiffs edits h.fullList = some h'.fullList ∧
        ListListener.materialize h'.listener = some (h'.fullList.take h.maxSize) ∧
        h'.listenerLen = ((min h'.fullList.length h.maxSize : Nat) : Int) := by
  induction edits with
  | nil =>
    intro h hmax hmat hlen _
    exact ⟨h, rfl, rfl, rfl, hmat, hlen⟩
  | cons d ds ih =>
    intro h hmax hmat hlen hvalid
    rw [applyListDiffs] at hvalid
    cases happ : applyListDiff h.fullList d with
    | none => rw [happ] at hvalid; cases hvalid
    | some F' =>
      rw [happ] at hvalid
      obtain ⟨h1, hc1, hms1, hfl1, hmat1, hlen1⟩ :=
        boundedCall_step h hmax hmat hlen d F' happ
      obtain ⟨h', hrun', hms', hfl', hmat', hlen'⟩ :=
        ih h1 (by rw [hms1]; exact hmax) (by rw [hms1, hfl1]; exact hmat1)
          (by rw [hms1, hfl1]; exact hlen1)
          (by rw [hfl1]; exact hvalid)
      refine ⟨h', ?_, ?_, ?_, ?_, ?_⟩
      · rw [BoundedListDiffHandler.run, hc1]
        exact hrun'
      · rw [hms', hms1]
      · rw [applyListDiffs, happ]
        rw [hfl1] at hfl'
        exact hfl'
      · rw [hms1] at hmat'; exact hmat'
      · rw [hms1] at hlen'; exact hlen'

/-- C5: Bounded-prefix invariant. For every max_size of at least 1 and every
sequence of inbound edits, valid in the sense that replaying them from the
empty sequence never goes out of bounds, feeding them through a
BoundedListDiffHandler wrapping a fresh ListListener succeeds, the handler's
shadow full list F is the replay of the edits, the inner listener's
materialized view (snapshot after applying its pending buffer) is exactly the
prefix F[0 : min(length F, max_size)] and so has length min(length F,
max_size), and the handler's running counter listenerLen equals
min(length F, max_size). The same holds after each edit, since every prefix of
a valid edit sequence is valid. -/
theorem bounded_handler_invariant [Inhabited α] (maxSize : Nat) (edits : List (Diff α))
    (hmax : 1 ≤ maxSize) (hvalid : (applyListDiffs edits []).isSome) :
    ∃ h', BoundedListDiffHandler.run ⟨⟨[], []⟩, maxSize, [], 0⟩ edits = some h' ∧
      applyListDiffs edits [] = some h'.fullList ∧
      ListListener.materialize h'.listener = some (h'.fullList.take maxSize) ∧
      (∀ mat, ListListener.materialize h'.listener = some mat →
        mat.length = min h'.fullList.length maxSize) ∧
      h'.listenerLen = ((min h'.fullList.length maxSize : Nat) : Int) := by
  obtain ⟨h', hrun, hms, hfl, hmat, hlen⟩ :=
    boundedRun_invariant edits ⟨⟨[], []⟩, maxSize, [], 0⟩ hmax
      (by simp [ListListener.materialize, ListListener.materializeFrom])
      (by simp) hvalid
  refine ⟨h', hrun, hfl, hmat, ?_, hlen⟩
  intro mat hmat'
  rw [hmat] at hmat'
  cases hmat'
  rw [List.length_take]
  show maxSize ⊓ h'.fullList.length = h'.fullList.length ⊓ maxSize
  omega

theorem bounded_handler_invariant_witness :
    (1 ≤ 2 ∧
      (applyListDiffs [(ListDiff.INSERT, 0, 7), (ListDiff.INSERT, 0, 8),
        (ListDiff.INSERT, 0, 9), (ListDiff.DELETE, 0, 0)] ([] : List Nat)).isSome = true) ∧
    ∃ h', BoundedListDiffHandler.run ⟨⟨[], []⟩, 2, [], 0⟩
        [(ListDiff.INSERT, 0, 7), (ListDiff.INSERT, 0, 8),
         (ListDiff.INSERT, 0, 9), (ListDiff.DELETE, 0, 0)] = some h' ∧
      applyListDiffs [(ListDiff.INSERT, 0, 7), (ListDiff.INSERT, 0, 8),
        (ListDiff.INSERT, 0, 9), (ListDiff.DELETE, 0, 0)] ([] : List Nat) =
        some h'.fullList ∧
      ListListener.materialize h'.listener = some (h'.fullList.take 2) ∧
      (∀ mat, ListListener.materialize h'.listener = some mat →
        mat.length = min h'.fullList.length 2) ∧
      h'.listenerLen = ((min h'.fullList.length 2 : Nat) : Int) :=
  ⟨⟨by decide, by decide⟩,
    bounded_handler_invariant 2 [(ListDiff.INSERT, 0, 7), (ListDiff.INSERT, 0, 8),
      (ListDiff.INSERT, 0, 9), (ListDiff.DELETE, 0, 0)] (by decide) (by decide)⟩

/-! ## Sequence-compaction correctness (claim C1): length bound -/

theorem updateCompactedTail_length (d : Nat) (S : List (Diff α)) :
    (updateCompactedTail d S).length = S.length := by
  induction S generalizing d with
  | nil => rfl
  | cons op rest ih =>
    obtain ⟨k, a, v⟩ := op
    simp only [updateCompactedTail, List.length_cons]
    simp [ih]

theorem updateCompactedOnDelete_length (d p : Nat) (Y : List (Diff α)) :
    (updateCompactedOnDelete d p Y).length = Y.length := by
  simp [updateCompactedOnDelete, updateCompactedTail_length]
  omega

theorem appendOp_compacted (op : Diff α) (st : CompactState α) :
    (appendOp op st).compacted = st.compacted ++ [op] := rfl

theorem compactStep_length_le (st : CompactState α) (op : Diff α) :
    (compactStep st op).compacted.length ≤ st.compacted.length + 1 := by
  obtain ⟨k, i, v⟩ := op
  cases k with
  | INSERT => simp [compactStep, appendOp]
  | REPLACE =>
    show (performReplace (ListDiff.REPLACE, i, v) st).compacted.length ≤ _
    simp only [performReplace]
    split
    · simp [appendOp]
    · split <;> simp [appendOp]
  | DELETE =>
    show (performDelete (ListDiff.DELETE, i, v) st).compacted.length ≤ _
    simp only [performDelete]
    split
    · simp [appendOp]
    · split <;>
        simp [appendOp, removeFromCompacted, updateCompactedOnDelete_length,
          List.length_eraseIdx] <;>
        (try split_ifs) <;> omega

theorem foldl_compactStep_length (X : List (Diff α)) :
    ∀ st : CompactState α,
      ((X.foldl compactStep st).compacted).length ≤ st.compacted.length + X.length := by
  induction X with
  | nil => intro st; simp
  | cons op X ih =>
    intro st
    rw [List.foldl_cons]
    have h1 := ih (compactStep st op)
    have h2 := compactStep_length_le st op
    simp only [List.length_cons]
    omega

theorem compact_list_diffs_length_le (X : List (Diff α)) :
    (compact_list_diffs X).length ≤ X.length := by
  have := foldl_compactStep_length X ⟨[], fun _ => none⟩
  simpa [compact_list_diffs] using this

/-! ## Index-commutation toolkit for the compaction proof -/

theorem getElem?_congr_idx (l : List β) {x y : Nat} (h : x = y) : l[x]? = l[y]? := by
  rw [h]

theorem insertIdx_eraseIdx_right (U : List β) (c : β) (a d : Nat) (had : a ≤ d)
    (hd : d < U.length) :
    (U.insertIdx a c).eraseIdx (d + 1) = (U.eraseIdx d).insertIdx a c := by
  have ha : a ≤ U.length := by omega
  have ha' : a ≤ (U.eraseIdx d).length := by
    rw [List.length_eraseIdx]; split_ifs <;> omega
  apply List.ext_getElem?
  intro k
  have L1 := getElem?_insertIdx_le U c a ha
  have L2 := getElem?_insertIdx_le (U.eraseIdx d) c a ha'
  rw [List.getElem?_eraseIdx, L2 k, L1 k, L1 (k + 1)]
  simp only [List.getElem?_eraseIdx]
  split_ifs <;> first | rfl | omega | exact getElem?_congr_idx U (by omega)

theorem insertIdx_eraseIdx_left (U : List β) (c : β) (a d : Nat) (hda : d < a)
    (ha : a ≤ U.length) :
    (U.insertIdx a c).eraseIdx d = (U.eraseIdx d).insertIdx (a - 1) c := by
  have hd : d < U.length := by omega
  have ha' : a - 1 ≤ (U.eraseIdx d).length := by
    rw [List.length_eraseIdx]; split_ifs <;> omega
  apply List.ext_getElem?
  intro k
  have L1 := getElem?_insertIdx_le U c a ha
  have L2 := getElem?_insertIdx_le (U.eraseIdx d) c (a - 1) ha'
  rw [List.getElem?_eraseIdx, L2 k, L1 k, L1 (k + 1)]
  simp only [List.getElem?_eraseIdx]
  split_ifs <;> first | rfl | omega | exact getElem?_congr_idx U (by omega)

theorem set_eraseIdx_right (U : List β) (c : β) (a d : Nat) (had : a < d) :
    (U.set a c).eraseIdx d = (U.eraseIdx d).set a c := by
  apply List.ext_getElem?
  intro k
  simp only [List.getElem?_eraseIdx, List.getElem?_set, List.length_eraseIdx,
    List.length_set]
  split_ifs <;> first | rfl | omega | exact getElem?_congr_idx U (by omega)

theorem set_eraseIdx_left (U : List β) (c : β) (a d : Nat) (hda : d < a) :
    (U.set a c).eraseIdx d = (U.eraseIdx d).set (a - 1) c := by
  apply List.ext_getElem?
  intro k
  simp only [List.getElem?_eraseIdx, List.getElem?_set, List.length_eraseIdx,
    List.length_set]
  split_ifs <;> first | rfl | omega | exact getElem?_congr_idx U (by omega)

theorem eraseIdx_eraseIdx_lt (U : List β) (a d : Nat) (had : a < d) :
    (U.eraseIdx a).eraseIdx (d - 1) = (U.eraseIdx d).eraseIdx a := by
  apply List.ext_getElem?
  intro k
  simp only [List.getElem?_eraseIdx]
  split_ifs <;> first | rfl | omega | exact getElem?_congr_idx U (by omega)

theorem set_insertIdx_le (U : List β) (c x : β) (a d : Nat) (had : a ≤ d)
    (hd : d < U.length) :
    (U.set d c).insertIdx a x = (U.insertIdx a x).set (d + 1) c := by
  have ha : a ≤ U.length := by omega
  have ha' : a ≤ (U.set d c).length := by rw [List.length_set]; omega
  apply List.ext_getElem?
  intro k
  have L1 := getElem?_insertIdx_le (U.set d c) x a ha'
  have L2 := getElem?_insertIdx_le U x a ha
  simp only [L1, L2, List.getElem?_set, List.length_insertIdx a U ha, List.length_set]
  split_ifs <;> first | rfl | omega | exact getElem?_congr_idx U (by omega)

theorem set_insertIdx_gt (U : List β) (c x : β) (a d : Nat) (hda : d < a) :
    (U.set d c).insertIdx a x = (U.insertIdx a x).set d c := by
  by_cases ha : a ≤ U.length
  · have ha' : a ≤ (U.set d c).length := by rw [List.length_set]; omega
    apply List.ext_getElem?
    intro k
    have L1 := getElem?_insertIdx_le (U.set d c) x a ha'
    have L2 := getElem?_insertIdx_le U x a ha
    simp only [L1, L2, List.getElem?_set, List.length_insertIdx a U ha, List.length_set]
    split_ifs <;> first | rfl | omega | exact getElem?_congr_idx U (by omega)
  · rw [List.insertIdx_of_length_lt _ _ _ (by rw [List.length_set]; omega),
      List.insertIdx_of_length_lt _ _ _ (by omega)]

theorem set_eraseIdx_same (U : List β) (c : β) (i : Nat) :
    (U.set i c).eraseIdx i = U.eraseIdx i := by
  apply List.ext_getElem?
  intro k
  simp only [List.getElem?_eraseIdx, List.getElem?_set, List.length_set]
  split_ifs <;> first | rfl | omega | exact getElem?_congr_idx U (by omega)

theorem set_insertIdx_same (U : List β) (c x : β) (i : Nat) (h : i ≤ U.length) :
    (U.insertIdx i x).set i c = U.insertIdx i c := by
  apply List.ext_getElem?
  intro k
  have L1 := getElem?_insertIdx_le U x i h
  have L2 := getElem?_insertIdx_le U c i h
  simp only [L1, L2, List.getElem?_set, List.length_insertIdx i U h]
  split_ifs <;> first | rfl | omega | exact getElem?_congr_idx U (by omega)

theorem set_append_length_cons (A B : List β) (x y : β) :
    (A ++ x :: B).set A.length y = A ++ y :: B := by
  induction A with
  | nil => rfl
  | cons a A ih => simp [List.set, ih]

theorem eraseIdx_append_length_cons (A B : List β) (x : β) :
    (A ++ x :: B).eraseIdx A.length = A ++ B := by
  induction A with
  | nil => rfl
  | cons a A ih => simp [List.eraseIdx, ih]

theorem drop_eraseIdx_of_le (l : List β) (r n : Nat) (hrn : r ≤ n) :
    (l.eraseIdx r).drop n = l.drop (n + 1) := by
  apply List.ext_getElem?
  intro k
  rw [List.getElem?_drop, List.getElem?_drop, List.getElem?_eraseIdx]
  split_ifs <;> first | exact getElem?_congr_idx l (by omega) | omega

theorem drop_eraseIdx_of_gt (l : List β) (r n : Nat) (hnr : n ≤ r) :
    (l.eraseIdx r).drop n = (l.drop n).eraseIdx (r - n) := by
  apply List.ext_getElem?
  intro k
  rw [List.getElem?_drop, List.getElem?_eraseIdx, List.getElem?_eraseIdx]
  simp only [List.getElem?_drop]
  split_ifs <;> first | rfl | exact getElem?_congr_idx l (by omega) | omega

theorem drop_set_lt (l : List β) (j n : Nat) (x : β) (hjn : j < n) :
    (l.set j x).drop n = l.drop n := by
  apply List.ext_getElem?
  intro k
  rw [List.getElem?_drop, List.getElem?_drop, List.getElem?_set]
  rw [if_neg (by omega)]

theorem set_getElem?_self (l : List β) (j : Nat) (x : β) (h : l[j]? = some x) :
    l.set j x = l := by
  have hj : j < l.length := by
    by_contra hc
    rw [List.getElem?_eq_none (by omega)] at h
    exact Option.noConfusion h
  apply List.ext_getElem?
  intro k
  rw [List.getElem?_set]
  by_cases hk : j = k
  · subst hk; rw [if_pos rfl, if_pos hj, h]
  · rw [if_neg hk]

theorem map_eraseIdx_comm (f : β → γ) (l : List β) (n : Nat) :
    (l.eraseIdx n).map f = (l.map f).eraseIdx n := by
  apply List.ext_getElem?
  intro k
  simp only [List.getElem?_map, List.getElem?_eraseIdx]
  split_ifs <;> rfl

/-! ## Cell semantics: basic algebra and the transfer to applyListDiffs -/

theorem cellsFrom_cons (op : Diff α) (ops : List (Diff α)) (U : List (Cell α)) :
    cellsFrom (op :: ops) U = (applyCellOp op U).bind (cellsFrom ops) := by
  simp only [cellsFrom]
  cases applyCellOp op U <;> rfl

theorem cellsFrom_append (A B : List (Diff α)) :
    ∀ U : List (Cell α), cellsFrom (A ++ B) U = (cellsFrom A U).bind (cellsFrom B) := by
  induction A with
  | nil => intro U; simp [cellsFrom]
  | cons op A ih =>
    intro U
    rw [List.cons_append, cellsFrom_cons, cellsFrom_cons]
    cases applyCellOp op U with
    | none => rfl
    | some U' => simp [ih]

theorem cellsFrom_concat (Z : List (Diff α)) (op : Diff α) (U : List (Cell α)) :
    cellsFrom (Z ++ [op]) U = (cellsFrom Z U).bind (applyCellOp op) := by
  rw [cellsFrom_append]
  cases cellsFrom Z U with
  | none => rfl
  | some W =>
    simp only [Option.some_bind, cellsFrom_cons]
    cases applyCellOp op W <;> rfl

theorem cellsRel_canon (S0 : List α) : CellsRel S0 (canonCells S0.length) S0 := by
  constructor
  · simp [canonCells]
  · intro p c x hc hx
    have hp : p < S0.length := by
      by_contra hcon
      rw [List.getElem?_eq_none (by omega)] at hx
      exact Option.noConfusion hx
    rw [canonCells, List.getElem?_map, List.getElem?_range hp] at hc
    simp only [Option.map_some'] at hc
    cases hc
    exact hx

theorem cellsRel_insertIdx {S0 : List α} {U : List (Cell α)} {T : List α}
    (h : CellsRel S0 U T) {c : Cell α} {x : α} (hcx : CellRel S0 c x) (a : Nat)
    (ha : a ≤ U.length) :
    CellsRel S0 (U.insertIdx a c) (T.insertIdx a x) := by
  obtain ⟨hlen, hrel⟩ := h
  have ha' : a ≤ T.length := by omega
  constructor
  · rw [List.length_insertIdx a U ha, List.length_insertIdx a T ha', hlen]
  · intro p d y hd hy
    rw [getElem?_insertIdx_le U c a ha p] at hd
    rw [getElem?_insertIdx_le T x a ha' p] at hy
    split_ifs at hd hy
    · exact hrel p d y hd hy
    · cases hd; cases hy; exact hcx
    · exact hrel (p - 1) d y hd hy

theorem cellsRel_set {S0 : List α} {U : List (Cell α)} {T : List α}
    (h : CellsRel S0 U T) {c : Cell α} {x : α} (hcx : CellRel S0 c x) (a : Nat) :
    CellsRel S0 (U.set a c) (T.set a x) := by
  obtain ⟨hlen, hrel⟩ := h
  constructor
  · simp [hlen]
  · intro p d y hd hy
    rw [List.getElem?_set] at hd hy
    by_cases hap : a = p
    · subst hap
      rw [if_pos rfl] at hd hy
      by_cases hlt : a < U.length
      · rw [if_pos hlt] at hd
        rw [if_pos (by omega)] at hy
        cases hd; cases hy; exact hcx
      · rw [if_neg hlt] at hd
        exact Option.noConfusion hd
    · rw [if_neg hap] at hd hy
      exact hrel p d y hd hy

theorem cellsRel_eraseIdx {S0 : List α} {U : List (Cell α)} {T : List α}
    (h : CellsRel S0 U T) (a : Nat) :
    CellsRel S0 (U.eraseIdx a) (T.eraseIdx a) := by
  obtain ⟨hlen, hrel⟩ := h
  constructor
  · rw [List.length_eraseIdx, List.length_eraseIdx, hlen]
  · intro p d y hd hy
    rw [List.getElem?_eraseIdx] at hd hy
    split_ifs at hd hy
    · exact hrel p d y hd hy
    · exact hrel (p + 1) d y hd hy

theorem cellsRel_fn {S0 : List α} {U : List (Cell α)} {T T' : List α}
    (h : CellsRel S0 U T) (h' : CellsRel S0 U T') : T = T' := by
  obtain ⟨hlen, hrel⟩ := h
  obtain ⟨hlen', hrel'⟩ := h'
  apply List.ext_getElem?
  intro k
  by_cases hk : k < U.length
  · have hcU := List.getElem?_eq_getElem (show k < U.length from hk)
    have hcT := List.getElem?_eq_getElem (show k < T.length by omega)
    have hcT' := List.getElem?_eq_getElem (show k < T'.length by omega)
    have r1 := hrel k _ _ hcU hcT
    have r2 := hrel' k _ _ hcU hcT'
    rw [hcT, hcT']
    cases hc : U[k] with
    | inl j =>
      rw [hc] at r1 r2
      simp only [CellRel] at r1 r2
      rw [r1] at r2
      exact r2
    | inr v =>
      rw [hc] at r1 r2
      simp only [CellRel] at r1 r2
      rw [← r1, ← r2]
  · rw [List.getElem?_eq_none (by omega), List.getElem?_eq_none (by omega)]

theorem cellsFrom_transfer (S0 : List α) (Z : List (Diff α)) :
    ∀ (U : List (Cell α)) (T : List α), CellsRel S0 U T →
      (cellsFrom Z U = none ∧ applyListDiffs Z T = none) ∨
        ∃ W T', cellsFrom Z U = some W ∧ applyListDiffs Z T = some T' ∧
          CellsRel S0 W T' := by
  induction Z with
  | nil => intro U T h; exact Or.inr ⟨U, T, rfl, rfl, h⟩
  | cons op Z ih =>
    intro U T h
    obtain ⟨k, i, v⟩ := op
    have hlen := h.1
    cases k with
    | INSERT =>
      rw [cellsFrom_cons]
      by_cases hb : i ≤ U.length
      · rw [show applyCellOp (ListDiff.INSERT, i, v) U =
            some (U.insertIdx i (Sum.inr v)) by simp [applyCellOp, hb]]
        simp only [applyListDiffs, applyListDiff, if_pos (show i ≤ T.length by omega)]
        exact ih _ _ (cellsRel_insertIdx h (show CellRel S0 (Sum.inr v) v from rfl) i hb)
      · rw [show applyCellOp (ListDiff.INSERT, i, v) U = none by
            simp [applyCellOp]; omega]
        simp only [applyListDiffs, applyListDiff, if_neg (show ¬ i ≤ T.length by omega)]
        exact Or.inl ⟨by simp, by simp⟩
    | REPLACE =>
      rw [cellsFrom_cons]
      by_cases hb : i < U.length
      · rw [show applyCellOp (ListDiff.REPLACE, i, v) U =
            some (U.set i (Sum.inr v)) by simp [applyCellOp, hb]]
        simp only [applyListDiffs, applyListDiff, if_pos (show i < T.length by omega)]
        exact ih _ _ (cellsRel_set h (show CellRel S0 (Sum.inr v) v from rfl) i)
      · rw [show applyCellOp (ListDiff.REPLACE, i, v) U = none by
            simp [applyCellOp]; omega]
        simp only [applyListDiffs, applyListDiff, if_neg (show ¬ i < T.length by omega)]
        exact Or.inl ⟨by simp, by simp⟩
    | DELETE =>
      rw [cellsFrom_cons]
      by_cases hb : i < U.length
      · rw [show applyCellOp (ListDiff.DELETE, i, v) U =
            some (U.eraseIdx i) by simp [applyCellOp, hb]]
        simp only [applyListDiffs, applyListDiff, if_pos (show i < T.length by omega)]
        exact ih _ _ (cellsRel_eraseIdx h i)
      · rw [show applyCellOp (ListDiff.DELETE, i, v) U = none by
            simp [applyCellOp]; omega]
        simp only [applyListDiffs, applyListDiff, if_neg (show ¬ i < T.length by omega)]
        exact Or.inl ⟨by simp, by simp⟩

/-! ## trackRun basics -/

theorem trackRun_append (A B : List (ListDiff × Nat)) :
    ∀ d, trackRun (A ++ B) d = (trackRun A d).bind (trackRun B) := by
  induction A with
  | nil => intro d; simp [trackRun]
  | cons ka A ih =>
    intro d
    obtain ⟨k, a⟩ := ka
    cases k with
    | INSERT => rw [List.cons_append]; simp only [trackRun]; exact ih _
    | REPLACE =>
      rw [List.cons_append]
      simp only [trackRun]
      by_cases had : a = d
      · rw [if_pos had, if_pos had]; rfl
      · rw [if_neg had, if_neg had]; exact ih _
    | DELETE =>
      rw [List.cons_append]
      simp only [trackRun]
      by_cases hc : a = d ∨ a + 1 = d
      · rw [if_pos hc, if_pos hc]; rfl
      · rw [if_neg hc, if_neg hc]; exact ih _

theorem trackRun_walkD (S : List (ListDiff × Nat)) :
    ∀ d e, trackRun S d = some e → walkD S d = e := by
  induction S with
  | nil => intro d e h; cases h; rfl
  | cons ka S ih =>
    intro d e h
    obtain ⟨k, a⟩ := ka
    cases k with
    | INSERT =>
      simp only [trackRun] at h
      simp only [walkD]
      by_cases had : a ≤ d
      · rw [if_pos had] at h
        rw [if_pos ⟨trivial, had⟩]
        exact ih _ _ h
      · rw [if_neg had] at h
        rw [if_neg (fun hcon => had hcon.2), if_neg (by simp)]
        exact ih _ _ h
    | REPLACE =>
      simp only [trackRun] at h
      by_cases had : a = d
      · rw [if_pos had] at h
        exact Option.noConfusion h
      · rw [if_neg had] at h
        simp only [walkD]
        rw [if_neg (by simp), if_neg (by simp)]
        exact ih _ _ h
    | DELETE =>
      simp only [trackRun] at h
      by_cases hc : a = d ∨ a + 1 = d
      · rw [if_pos hc] at h; exact Option.noConfusion h
      · rw [if_neg hc] at h
        simp only [walkD]
        rw [if_neg (by simp)]
        by_cases had : a < d
        · rw [if_pos had] at h
          rw [if_pos ⟨trivial, had⟩]
          exact ih _ _ h
        · rw [if_neg had] at h
          rw [if_neg (fun hcon => had hcon.2)]
          exact ih _ _ h

/-! ## The two simulation lemmas: tracked SET and tracked DELETE -/

theorem updateCompactedTail_cons_insert (d a : Nat) (v : α) (S : List (Diff α)) :
    updateCompactedTail d ((ListDiff.INSERT, a, v) :: S) =
      if a ≤ d then (ListDiff.INSERT, a, v) :: updateCompactedTail (d + 1) S
      else (ListDiff.INSERT, a - 1, v) :: updateCompactedTail d S := by
  by_cases had : a ≤ d
  · simp [updateCompactedTail, had, show ¬(d + 1 ≤ a) by omega]
  · simp [updateCompactedTail, had, show d ≤ a by omega]

theorem updateCompactedTail_cons_replace (d a : Nat) (v : α) (S : List (Diff α)) :
    updateCompactedTail d ((ListDiff.REPLACE, a, v) :: S) =
      (if d ≤ a then (ListDiff.REPLACE, a - 1, v) else (ListDiff.REPLACE, a, v)) ::
        updateCompactedTail d S := by
  simp [updateCompactedTail]

theorem updateCompactedTail_cons_delete (d a : Nat) (v : α) (S : List (Diff α)) :
    updateCompactedTail d ((ListDiff.DELETE, a, v) :: S) =
      if a < d then
        (if d - 1 ≤ a then (ListDiff.DELETE, a - 1, v) else (ListDiff.DELETE, a, v)) ::
          updateCompactedTail (d - 1) S
      else
        (if d ≤ a then (ListDiff.DELETE, a - 1, v) else (ListDiff.DELETE, a, v)) ::
          updateCompactedTail d S := by
  by_cases had : a < d <;> simp [updateCompactedTail, had]

theorem setSim (S : List (Diff α)) :
    ∀ (d i : Nat) (U : List (Cell α)) (c : Cell α),
      trackRun (S.map dropPayload) d = some i → d < U.length →
      cellsFrom S (U.set d c) = (cellsFrom S U).map (fun T => T.set i c) := by
  induction S with
  | nil =>
    intro d i U c ht hd
    cases ht
    rfl
  | cons op S ih =>
    intro d i U c ht hd
    obtain ⟨k, a, v⟩ := op
    rw [cellsFrom_cons, cellsFrom_cons]
    cases k with
    | INSERT =>
      simp only [List.map_cons, dropPayload, trackRun] at ht
      by_cases hb : a ≤ U.length
      · rw [show applyCellOp (ListDiff.INSERT, a, v) (U.set d c) =
            some ((U.set d c).insertIdx a (Sum.inr v)) by
          simp [applyCellOp, List.length_set, hb]]
        rw [show applyCellOp (ListDiff.INSERT, a, v) U =
            some (U.insertIdx a (Sum.inr v)) by simp [applyCellOp, hb]]
        simp only [Option.some_bind]
        by_cases had : a ≤ d
        · rw [if_pos had] at ht
          rw [set_insertIdx_le U c (Sum.inr v) a d had hd]
          exact ih (d + 1) i _ c ht (by rw [List.length_insertIdx a U hb]; omega)
        · rw [if_neg had] at ht
          rw [set_insertIdx_gt U c (Sum.inr v) a d (by omega)]
          exact ih d i _ c ht (by rw [List.length_insertIdx a U hb]; omega)
      · rw [show applyCellOp (ListDiff.INSERT, a, v) (U.set d c) = none by
          simp [applyCellOp, List.length_set]; omega]
        rw [show applyCellOp (ListDiff.INSERT, a, v) U = none by
          simp [applyCellOp]; omega]
        rfl
    | REPLACE =>
      simp only [List.map_cons, dropPayload, trackRun] at ht
      have had : a ≠ d := by
        intro hcon
        rw [if_pos hcon] at ht
        exact Option.noConfusion ht
      rw [if_neg had] at ht
      by_cases hb : a < U.length
      · rw [show applyCellOp (ListDiff.REPLACE, a, v) (U.set d c) =
            some ((U.set d c).set a (Sum.inr v)) by
          simp [applyCellOp, List.length_set, hb]]
        rw [show applyCellOp (ListDiff.REPLACE, a, v) U =
            some (U.set a (Sum.inr v)) by simp [applyCellOp, hb]]
        simp only [Option.some_bind]
        rw [List.set_comm c (Sum.inr v) U (fun hcon => had hcon.symm)]
        exact ih d i _ c ht (by rw [List.length_set]; omega)
      · rw [show applyCellOp (ListDiff.REPLACE, a, v) (U.set d c) = none by
          simp [applyCellOp, List.length_set]; omega]
        rw [show applyCellOp (ListDiff.REPLACE, a, v) U = none by
          simp [applyCellOp]; omega]
        rfl
    | DELETE =>
      simp only [List.map_cons, dropPayload, trackRun] at ht
      have hcg : ¬(a = d ∨ a + 1 = d) := by
        intro hcon
        rw [if_pos hcon] at ht
        exact Option.noConfusion ht
      rw [if_neg hcg] at ht
      push_neg at hcg
      by_cases hb : a < U.length
      · rw [show applyCellOp (ListDiff.DELETE, a, v) (U.set d c) =
            some ((U.set d c).eraseIdx a) by simp [applyCellOp, List.length_set, hb]]
        rw [show applyCellOp (ListDiff.DELETE, a, v) U =
            some (U.eraseIdx a) by simp [applyCellOp, hb]]
        simp only [Option.some_bind]
        by_cases had : a < d
        · rw [if_pos had] at ht
          rw [set_eraseIdx_left U c d a had]
          exact ih (d - 1) i _ c ht
            (by rw [List.length_eraseIdx, if_pos hb]; omega)
        · rw [if_neg had] at ht
          rw [set_eraseIdx_right U c d a (by omega)]
          exact ih d i _ c ht
            (by rw [List.length_eraseIdx, if_pos hb]; omega)
      · rw [show applyCellOp (ListDiff.DELETE, a, v) (U.set d c) = none by
          simp [applyCellOp, List.length_set]; omega]
        rw [show applyCellOp (ListDiff.DELETE, a, v) U = none by
          simp [applyCellOp]; omega]
        rfl

theorem walkSim (S : List (Diff α)) :
    ∀ (d i : Nat) (U : List (Cell α)),
      trackRun (S.map dropPayload) d = some i → d < U.length →
      cellsFrom (updateCompactedTail d S) (U.eraseIdx d) =
        (cellsFrom S U).map (fun T => T.eraseIdx i) := by
  induction S with
  | nil =>
    intro d i U ht hd
    cases ht
    rfl
  | cons op S ih =>
    intro d i U ht hd
    obtain ⟨k, a, v⟩ := op
    have hlenE : (U.eraseIdx d).length = U.length - 1 := by
      rw [List.length_eraseIdx, if_pos hd]
    cases k with
    | INSERT =>
      simp only [List.map_cons, dropPayload, trackRun] at ht
      rw [updateCompactedTail_cons_insert]
      by_cases had : a ≤ d
      · rw [if_pos had] at ht ⊢
        rw [cellsFrom_cons, cellsFrom_cons]
        rw [show applyCellOp (ListDiff.INSERT, a, v) (U.eraseIdx d) =
            some ((U.eraseIdx d).insertIdx a (Sum.inr v)) by
          simp [applyCellOp, hlenE]; omega]
        rw [show applyCellOp (ListDiff.INSERT, a, v) U =
            some (U.insertIdx a (Sum.inr v)) by simp [applyCellOp]; omega]
        simp only [Option.some_bind]
        rw [← insertIdx_eraseIdx_right U (Sum.inr v) a d had hd]
        exact ih (d + 1) i _ ht
          (by rw [List.length_insertIdx a U (by omega)]; omega)
      · rw [if_neg had] at ht ⊢
        rw [cellsFrom_cons, cellsFrom_cons]
        by_cases hb : a ≤ U.length
        · rw [show applyCellOp (ListDiff.INSERT, a - 1, v) (U.eraseIdx d) =
              some ((U.eraseIdx d).insertIdx (a - 1) (Sum.inr v)) by
            simp [applyCellOp, hlenE]; omega]
          rw [show applyCellOp (ListDiff.INSERT, a, v) U =
              some (U.insertIdx a (Sum.inr v)) by simp [applyCellOp, hb]]
          simp only [Option.some_bind]
          rw [← insertIdx_eraseIdx_left U (Sum.inr v) a d (by omega) hb]
          exact ih d i _ ht
            (by rw [List.length_insertIdx a U hb]; omega)
        · rw [show applyCellOp (ListDiff.INSERT, a - 1, v) (U.eraseIdx d) = none by
            simp [applyCellOp, hlenE]; omega]
          rw [show applyCellOp (ListDiff.INSERT, a, v) U = none by
            simp [applyCellOp]; omega]
          rfl
    | REPLACE =>
      simp only [List.map_cons, dropPayload, trackRun] at ht
      have had : a ≠ d := by
        intro hcon
        rw [if_pos hcon] at ht
        exact Option.noConfusion ht
      rw [if_neg had] at ht
      rw [updateCompactedTail_cons_replace]
      by_cases hor : d ≤ a
      · have hda : d < a := by omega
        rw [if_pos hor]
        rw [cellsFrom_cons, cellsFrom_cons]
        by_cases hb : a < U.length
        · rw [show applyCellOp (ListDiff.REPLACE, a - 1, v) (U.eraseIdx d) =
              some ((U.eraseIdx d).set (a - 1) (Sum.inr v)) by
            simp [applyCellOp, hlenE]; omega]
          rw [show applyCellOp (ListDiff.REPLACE, a, v) U =
              some (U.set a (Sum.inr v)) by simp [applyCellOp, hb]]
          simp only [Option.some_bind]
          rw [← set_eraseIdx_left U (Sum.inr v) a d hda]
          exact ih d i _ ht (by rw [List.length_set]; omega)
        · rw [show applyCellOp (ListDiff.REPLACE, a - 1, v) (U.eraseIdx d) = none by
            simp [applyCellOp, hlenE]; omega]
          rw [show applyCellOp (ListDiff.REPLACE, a, v) U = none by
            simp [applyCellOp]; omega]
          rfl
      · have hda : a < d := by omega
        rw [if_neg hor]
        rw [cellsFrom_cons, cellsFrom_cons]
        rw [show applyCellOp (ListDiff.REPLACE, a, v) (U.eraseIdx d) =
            some ((U.eraseIdx d).set a (Sum.inr v)) by
          simp [applyCellOp, hlenE]; omega]
        rw [show applyCellOp (ListDiff.REPLACE, a, v) U =
            some (U.set a (Sum.inr v)) by simp [applyCellOp]; omega]
        simp only [Option.some_bind]
        rw [← set_eraseIdx_right U (Sum.inr v) a d hda]
        exact ih d i _ ht (by rw [List.length_set]; omega)
    | DELETE =>
      simp only [List.map_cons, dropPayload, trackRun] at ht
      have hcg : ¬(a = d ∨ a + 1 = d) := by
        intro hcon
        rw [if_pos hcon] at ht
        exact Option.noConfusion ht
      rw [if_neg hcg] at ht
      push_neg at hcg
      rw [updateCompactedTail_cons_delete]
      by_cases had : a < d
      · have had2 : a + 2 ≤ d := by omega
        rw [if_pos had] at ht ⊢
        rw [if_neg (by omega : ¬ d - 1 ≤ a)]
        rw [cellsFrom_cons, cellsFrom_cons]
        rw [show applyCellOp (ListDiff.DELETE, a, v) (U.eraseIdx d) =
            some ((U.eraseIdx d).eraseIdx a) by simp [applyCellOp, hlenE]; omega]
        rw [show applyCellOp (ListDiff.DELETE, a, v) U =
            some (U.eraseIdx a) by simp [applyCellOp]; omega]
        simp only [Option.some_bind]
        rw [← eraseIdx_eraseIdx_lt U a d had]
        exact ih (d - 1) i _ ht
          (by rw [List.length_eraseIdx, if_pos (by omega : a < U.length)]; omega)
      · have hda : d < a := by omega
        rw [if_neg had] at ht ⊢
        rw [if_pos (by omega : d ≤ a)]
        rw [cellsFrom_cons, cellsFrom_cons]
        by_cases hb : a < U.length
        · rw [show applyCellOp (ListDiff.DELETE, a - 1, v) (U.eraseIdx d) =
              some ((U.eraseIdx d).eraseIdx (a - 1)) by
            simp [applyCellOp, hlenE]; omega]
          rw [show applyCellOp (ListDiff.DELETE, a, v) U =
              some (U.eraseIdx a) by simp [applyCellOp, hb]]
          simp only [Option.some_bind]
          rw [eraseIdx_eraseIdx_lt U d a hda]
          exact ih d i _ ht
            (by rw [List.length_eraseIdx, if_pos hb]; omega)
        · rw [show applyCellOp (ListDiff.DELETE, a - 1, v) (U.eraseIdx d) = none by
            simp [applyCellOp, hlenE]; omega]
          rw [show applyCellOp (ListDiff.DELETE, a, v) U = none by
            simp [applyCellOp]; omega]
          rfl

/-- Joint tracking: removing the tracked-at-d element's INSERT and fixing the
tail with the running walk preserves the tracking of any second element, with
its start and final position shifted across the removed one. -/
theorem trackRun_fix_pair (S : List (Diff α)) :
    ∀ (d e i_d i_e : Nat), d ≠ e →
      trackRun (S.map dropPayload) d = some i_d →
      trackRun (S.map dropPayload) e = some i_e →
      trackRun ((updateCompactedTail d S).map dropPayload)
          (if d < e then e - 1 else e) =
        some (if i_d < i_e then i_e - 1 else i_e) := by
  induction S with
  | nil =>
    intro d e i_d i_e hde htd hte
    cases htd
    cases hte
    rfl
  | cons op S ih =>
    intro d e i_d i_e hde htd hte
    obtain ⟨k, a, v⟩ := op
    cases k with
    | INSERT =>
      simp only [List.map_cons, dropPayload, trackRun] at htd hte
      rw [updateCompactedTail_cons_insert]
      by_cases had : a ≤ d
      · rw [if_pos had] at htd
        rw [if_pos had]
        simp only [List.map_cons, dropPayload, trackRun]
        by_cases hae : a ≤ e
        · rw [if_pos hae] at hte
          by_cases hlt : d < e
          · rw [if_pos hlt]
            rw [if_pos (by omega : a ≤ e - 1)]
            have hih := ih (d + 1) (e + 1) i_d i_e (by omega) htd hte
            rw [if_pos (by omega : d + 1 < e + 1)] at hih
            rw [show e - 1 + 1 = e + 1 - 1 by omega]
            exact hih
          · rw [if_neg hlt]
            rw [if_pos hae]
            have hih := ih (d + 1) (e + 1) i_d i_e (by omega) htd hte
            rw [if_neg (by omega : ¬ d + 1 < e + 1)] at hih
            exact hih
        · rw [if_neg hae] at hte
          rw [if_neg (by omega : ¬ d < e)]
          rw [if_neg hae]
          have hih := ih (d + 1) e i_d i_e (by omega) htd hte
          rw [if_neg (by omega : ¬ d + 1 < e)] at hih
          exact hih
      · rw [if_neg had] at htd
        rw [if_neg had]
        simp only [List.map_cons, dropPayload, trackRun]
        by_cases hae : a ≤ e
        · rw [if_pos hae] at hte
          rw [if_pos (by omega : d < e)]
          rw [if_pos (by omega : a - 1 ≤ e - 1)]
          have hih := ih d (e + 1) i_d i_e (by omega) htd hte
          rw [if_pos (by omega : d < e + 1)] at hih
          rw [show e - 1 + 1 = e + 1 - 1 by omega]
          exact hih
        · rw [if_neg hae] at hte
          by_cases hlt : d < e
          · rw [if_pos hlt]
            rw [if_neg (by omega : ¬ a - 1 ≤ e - 1)]
            have hih := ih d e i_d i_e hde htd hte
            rw [if_pos hlt] at hih
            exact hih
          · rw [if_neg hlt]
            rw [if_neg (by omega : ¬ a - 1 ≤ e)]
            have hih := ih d e i_d i_e hde htd hte
            rw [if_neg hlt] at hih
            exact hih
    | REPLACE =>
      simp only [List.map_cons, dropPayload, trackRun] at htd hte
      have had : a ≠ d := by
        intro hcon; rw [if_pos hcon] at htd; exact Option.noConfusion htd
      have hae : a ≠ e := by
        intro hcon; rw [if_pos hcon] at hte; exact Option.noConfusion hte
      rw [if_neg had] at htd
      rw [if_neg hae] at hte
      rw [updateCompactedTail_cons_replace]
      by_cases hor : d ≤ a
      · rw [if_pos hor]
        simp only [List.map_cons, dropPayload, trackRun]
        rw [if_neg (show ¬ a - 1 = (if d < e then e - 1 else e) by
          intro hcon; split_ifs at hcon <;> omega)]
        exact ih d e i_d i_e hde htd hte
      · rw [if_neg hor]
        simp only [List.map_cons, dropPayload, trackRun]
        rw [if_neg (show ¬ a = (if d < e then e - 1 else e) by
          intro hcon; split_ifs at hcon <;> omega)]
        exact ih d e i_d i_e hde htd hte
    | DELETE =>
      simp only [List.map_cons, dropPayload, trackRun] at htd hte
      have hcd : ¬(a = d ∨ a + 1 = d) := by
        intro hcon; rw [if_pos hcon] at htd; exact Option.noConfusion htd
      have hce : ¬(a = e ∨ a + 1 = e) := by
        intro hcon; rw [if_pos hcon] at hte; exact Option.noConfusion hte
      rw [if_neg hcd] at htd
      rw [if_neg hce] at hte
      push_neg at hcd hce
      rw [updateCompactedTail_cons_delete]
      by_cases had : a < d
      · rw [if_pos had] at htd ⊢
        rw [if_neg (by omega : ¬ d - 1 ≤ a)]
        simp only [List.map_cons, dropPayload, trackRun]
        by_cases hae : a < e
        · rw [if_pos hae] at hte
          by_cases hlt : d < e
          · rw [if_pos hlt]
            rw [if_neg (by omega : ¬(a = e - 1 ∨ a + 1 = e - 1))]
            rw [if_pos (by omega : a < e - 1)]
            have hih := ih (d - 1) (e - 1) i_d i_e (by omega) htd hte
            rw [if_pos (by omega : d - 1 < e - 1)] at hih
            exact hih
          · rw [if_neg hlt]
            rw [if_neg (by omega : ¬(a = e ∨ a + 1 = e))]
            rw [if_pos hae]
            have hih := ih (d - 1) (e - 1) i_d i_e (by omega) htd hte
            rw [if_neg (by omega : ¬ d - 1 < e - 1)] at hih
            exact hih
        · rw [if_neg hae] at hte
          rw [if_neg (by omega : ¬ d < e)]
          rw [if_neg (by omega : ¬(a = e ∨ a + 1 = e))]
          rw [if_neg hae]
          have hih := ih (d - 1) e i_d i_e (by omega) htd hte
          rw [if_neg (by omega : ¬ d - 1 < e)] at hih
          exact hih
      · rw [if_neg had] at htd ⊢
        rw [if_pos (by omega : d ≤ a)]
        simp only [List.map_cons, dropPayload, trackRun]
        by_cases hae : a < e
        · rw [if_pos hae] at hte
          rw [if_pos (by omega : d < e)]
          rw [if_neg (by omega : ¬(a - 1 = e - 1 ∨ a - 1 + 1 = e - 1))]
          rw [if_pos (by omega : a - 1 < e - 1)]
          have hih := ih d (e - 1) i_d i_e (by omega) htd hte
          rw [if_pos (by omega : d < e - 1)] at hih
          exact hih
        · rw [if_neg hae] at hte
          by_cases hlt : d < e
          · rw [if_pos hlt]
            rw [if_neg (by omega : ¬(a - 1 = e - 1 ∨ a - 1 + 1 = e - 1))]
            rw [if_neg (by omega : ¬ a - 1 < e - 1)]
            have hih := ih d e i_d i_e hde htd hte
            rw [if_pos hlt] at hih
            exact hih
          · rw [if_neg hlt]
            rw [if_neg (by omega : ¬(a - 1 = e ∨ a - 1 + 1 = e))]
            rw [if_neg (by omega : ¬ a - 1 < e)]
            have hih := ih d e i_d i_e hde htd hte
            rw [if_neg hlt] at hih
            exact hih

/-! ## Structural lemmas for the compaction state -/

theorem updateCompactedTail_append (S₁ S₂ : List (Diff α)) :
    ∀ d, updateCompactedTail d (S₁ ++ S₂) =
      updateCompactedTail d S₁ ++
        updateCompactedTail (walkD (S₁.map dropPayload) d) S₂ := by
  induction S₁ with
  | nil => intro d; simp [updateCompactedTail, walkD]
  | cons op S₁ ih =>
    intro d
    obtain ⟨k, a, v⟩ := op
    simp only [List.cons_append, updateCompactedTail, List.map_cons, dropPayload, walkD]
    exact congrArg _ (ih _)

theorem map_dropPayload_set (Y : List (Diff α)) (j : Nat) (k : ListDiff) (b : Nat)
    (v w : α) (hj : Y[j]? = some (k, b, w)) :
    (Y.set j (k, b, v)).map dropPayload = Y.map dropPayload := by
  have hjlen : j < Y.length := by
    by_contra hc
    rw [List.getElem?_eq_none (by omega)] at hj
    exact Option.noConfusion hj
  apply List.ext_getElem?
  intro n
  rw [List.getElem?_map, List.getElem?_map, List.getElem?_set]
  by_cases hn : j = n
  · subst hn
    rw [if_pos rfl, if_pos hjlen, hj]
    rfl
  · rw [if_neg hn]

theorem list_decomp_at (l : List β) (p : Nat) (x : β) (h : l[p]? = some x) :
    l = l.take p ++ x :: l.drop (p + 1) := by
  have hp : p < l.length := by
    by_contra hc
    rw [List.getElem?_eq_none (by omega)] at h
    exact Option.noConfusion h
  have hx : l[p] = x := by
    have h2 := List.getElem?_eq_getElem hp
    rw [h] at h2
    exact (Option.some.inj h2).symm
  conv_lhs => rw [← List.take_append_drop p l]
  rw [List.drop_eq_getElem_cons hp, hx]

theorem cells_concat (Z : List (Diff α)) (op : Diff α) (L : Nat) :
    cells (Z ++ [op]) L = (cells Z L).bind (applyCellOp op) :=
  cellsFrom_concat Z op _

theorem cellsFrom_split_slot (Y : List (Diff α)) (p : Nat) (op : Diff α)
    (hG : Y[p]? = some op) (U W : List (Cell α)) (hW : cellsFrom Y U = some W) :
    ∃ U₁ U₂, cellsFrom (Y.take p) U = some U₁ ∧ applyCellOp op U₁ = some U₂ ∧
      cellsFrom (Y.drop (p + 1)) U₂ = some W := by
  rw [list_decomp_at Y p op hG] at hW
  rw [cellsFrom_append] at hW
  simp only [cellsFrom_cons] at hW
  cases hA : cellsFrom (Y.take p) U with
  | none =>
    rw [hA] at hW
    exact absurd hW (by simp)
  | some U₁ =>
    rw [hA] at hW
    simp only [Option.some_bind] at hW
    cases hOp : applyCellOp op U₁ with
    | none =>
      rw [hOp] at hW
      exact absurd hW (by simp)
    | some U₂ =>
      rw [hOp] at hW
      simp only [Option.some_bind] at hW
      refine ⟨U₁, U₂, ?_, ?_, ?_⟩ <;> first | rfl | assumption

/-! ## Branch-selection characterizations of the compaction step -/

theorem compactStep_insert_eq (st : CompactState α) (i : Nat) (v : α) :
    compactStep st (ListDiff.INSERT, i, v) = appendOp (ListDiff.INSERT, i, v) st := rfl

theorem compactStep_replace_eq (st : CompactState α) (i : Nat) (v : α) :
    compactStep st (ListDiff.REPLACE, i, v) = performReplace (ListDiff.REPLACE, i, v) st :=
  rfl

theorem compactStep_delete_eq (st : CompactState α) (i : Nat) (v : α) :
    compactStep st (ListDiff.DELETE, i, v) = performDelete (ListDiff.DELETE, i, v) st :=
  rfl

theorem performReplace_append_none (op : Diff α) (st : CompactState α)
    (hM : st.opIndexToCompactedIndex op.2.1 = none) :
    performReplace op st = appendOp op st := by
  simp [performReplace, hM]

theorem performReplace_append_delete (op : Diff α) (st : CompactState α) (p ri : Nat)
    (w : α) (hM : st.opIndexToCompactedIndex op.2.1 = some p)
    (hG : st.compacted[p]? = some (ListDiff.DELETE, ri, w)) :
    performReplace op st = appendOp op st := by
  simp only [performReplace, hM]
  rw [hG]

theorem performReplace_pair (op : Diff α) (st : CompactState α) (p : Nat)
    (rk : ListDiff) (ri : Nat) (w : α)
    (hM : st.opIndexToCompactedIndex op.2.1 = some p)
    (hG : st.compacted[p]? = some (rk, ri, w)) (hrk : rk ≠ ListDiff.DELETE) :
    performReplace op st =
      { st with compacted := st.compacted.set p (rk, ri, op.2.2) } := by
  simp only [performReplace, hM]
  rw [hG]
  cases rk with
  | DELETE => exact absurd rfl hrk
  | INSERT => rfl
  | REPLACE => rfl

theorem performDelete_append_none (op : Diff α) (st : CompactState α)
    (hM : st.opIndexToCompactedIndex op.2.1 = none) :
    performDelete op st = appendOp op st := by
  simp [performDelete, hM]

theorem performDelete_append_delete (op : Diff α) (st : CompactState α) (p ri : Nat)
    (w : α) (hM : st.opIndexToCompactedIndex op.2.1 = some p)
    (hG : st.compacted[p]? = some (ListDiff.DELETE, ri, w)) :
    performDelete op st = appendOp op st := by
  simp only [performDelete, hM]
  rw [hG]

theorem performDelete_replace_pair (op : Diff α) (st : CompactState α) (p ri : Nat)
    (w : α) (hM : st.opIndexToCompactedIndex op.2.1 = some p)
    (hG : st.compacted[p]? = some (ListDiff.REPLACE, ri, w)) :
    performDelete op st = appendOp op
      { compacted := st.compacted.eraseIdx p
        opIndexToCompactedIndex := fun k =>
          if k = op.2.1 then none
          else (st.opIndexToCompactedIndex k).map
            (fun j => if p ≤ j then j - 1 else j) } := by
  simp only [performDelete, hM]
  rw [hG]
  rfl

theorem performDelete_insert_pair (op : Diff α) (st : CompactState α) (p b : Nat)
    (w : α) (hM : st.opIndexToCompactedIndex op.2.1 = some p)
    (hG : st.compacted[p]? = some (ListDiff.INSERT, b, w)) :
    performDelete op st =
      { compacted := (updateCompactedOnDelete b p st.compacted).eraseIdx p
        opIndexToCompactedIndex := fun k =>
          if k < op.2.1 then
            (if k = op.2.1 then none
             else (st.opIndexToCompactedIndex k).map
               (fun j => if p ≤ j then j - 1 else j))
          else
            (if k + 1 = op.2.1 then none
             else (st.opIndexToCompactedIndex (k + 1)).map
               (fun j => if p ≤ j then j - 1 else j)) } := by
  simp only [performDelete, hM]
  rw [hG]
  rfl

/-! ## appendOp: helper-map characterization and invariant preservation -/

theorem appendOp_m_insert (a : Nat) (v : α) (st : CompactState α) (kk : Nat) :
    (appendOp (ListDiff.INSERT, a, v) st).opIndexToCompactedIndex kk =
      if kk = a then some st.compacted.length
      else if kk < a then st.opIndexToCompactedIndex kk
      else st.opIndexToCompactedIndex (kk - 1) := by
  by_cases h1 : kk = a <;> simp [appendOp, h1]

theorem appendOp_m_replace (a : Nat) (v : α) (st : CompactState α) (kk : Nat) :
    (appendOp (ListDiff.REPLACE, a, v) st).opIndexToCompactedIndex kk =
      if kk = a then some st.compacted.length
      else st.opIndexToCompactedIndex kk := by
  by_cases h1 : kk = a <;> simp [appendOp, h1]

theorem appendOp_m_delete (a : Nat) (v : α) (st : CompactState α) (kk : Nat) :
    (appendOp (ListDiff.DELETE, a, v) st).opIndexToCompactedIndex kk =
      if kk = a then some st.compacted.length
      else if kk < a then st.opIndexToCompactedIndex kk
      else st.opIndexToCompactedIndex (kk + 1) := by
  by_cases h1 : kk = a <;> simp [appendOp, h1]

theorem appendOp_bindings (op : Diff α) (st : CompactState α)
    (hB : ∀ i j, st.opIndexToCompactedIndex i = some j → BindingOk st.compacted i j) :
    ∀ i j, (appendOp op st).opIndexToCompactedIndex i = some j →
      BindingOk (appendOp op st).compacted i j := by
  obtain ⟨k, a, v⟩ := op
  intro i j hij
  rw [appendOp_compacted]
  have hnew : ∀ hi : i = a, ∀ hj : j = st.compacted.length,
      BindingOk (st.compacted ++ [(k, a, v)]) i j := by
    intro hi hj
    subst hj
    rw [hi]
    refine ⟨(k, a, v), List.getElem?_concat_length _ _, ?_⟩
    cases k with
    | DELETE => exact Or.inl rfl
    | INSERT =>
      refine Or.inr ?_
      rw [List.drop_eq_nil_of_le (by simp), List.map_nil]
      rfl
    | REPLACE =>
      refine Or.inr ?_
      rw [List.drop_eq_nil_of_le (by simp), List.map_nil]
      rfl
  have hold : ∀ i₀, st.opIndexToCompactedIndex i₀ = some j →
      trackRun [(k, a)] i₀ = some i →
      BindingOk (st.compacted ++ [(k, a, v)]) i j := by
    intro i₀ hM0 hstep
    obtain ⟨opj, hopj, hdisj⟩ := hB i₀ j hM0
    have hjlen : j < st.compacted.length := by
      by_contra hc
      rw [List.getElem?_eq_none (by omega)] at hopj
      exact Option.noConfusion hopj
    refine ⟨opj, ?_, ?_⟩
    · rw [List.getElem?_append, if_pos hjlen]
      exact hopj
    · cases hdisj with
      | inl hdel => exact Or.inl hdel
      | inr htr =>
        refine Or.inr ?_
        rw [List.drop_append_of_le_length (by omega), List.map_append,
          trackRun_append, htr]
        simpa [dropPayload] using hstep
  cases k with
  | INSERT =>
    rw [appendOp_m_insert] at hij
    by_cases h1 : i = a
    · rw [if_pos h1] at hij
      exact hnew h1 (Option.some.inj hij).symm
    · rw [if_neg h1] at hij
      by_cases h2 : i < a
      · rw [if_pos h2] at hij
        refine hold i hij ?_
        simp only [trackRun]
        rw [if_neg (by omega : ¬ a ≤ i)]
      · rw [if_neg h2] at hij
        refine hold (i - 1) hij ?_
        simp only [trackRun]
        rw [if_pos (by omega : a ≤ i - 1)]
        rw [show i - 1 + 1 = i by omega]
  | REPLACE =>
    rw [appendOp_m_replace] at hij
    by_cases h1 : i = a
    · rw [if_pos h1] at hij
      exact hnew h1 (Option.some.inj hij).symm
    · rw [if_neg h1] at hij
      refine hold i hij ?_
      simp only [trackRun]
      rw [if_neg (fun hcon => h1 hcon.symm)]
  | DELETE =>
    rw [appendOp_m_delete] at hij
    by_cases h1 : i = a
    · rw [if_pos h1] at hij
      exact hnew h1 (Option.some.inj hij).symm
    · rw [if_neg h1] at hij
      by_cases h2 : i < a
      · rw [if_pos h2] at hij
        refine hold i hij ?_
        simp only [trackRun]
        rw [if_neg (by omega : ¬(a = i ∨ a + 1 = i))]
        rw [if_neg (by omega : ¬ a < i)]
      · rw [if_neg h2] at hij
        refine hold (i + 1) hij ?_
        simp only [trackRun]
        rw [if_neg (by omega : ¬(a = i + 1 ∨ a + 1 = i + 1))]
        rw [if_pos (by omega : a < i + 1)]
        rfl

theorem compactInv_appendOp (P : List (Diff α)) (st : CompactState α) (op : Diff α)
    (h : CompactInv P st) : CompactInv (P ++ [op]) (appendOp op st) := by
  obtain ⟨hE, hB⟩ := h
  refine ⟨?_, appendOp_bindings op st hB⟩
  intro L hsome
  rw [cells_concat] at hsome
  have hPsome : (cells P L).isSome := by
    cases hP : cells P L with
    | none => rw [hP] at hsome; exact absurd hsome (by simp)
    | some W => simp
  rw [appendOp_compacted, cells_concat, cells_concat, hE L hPsome]

/-! ## The REPLACE-pairing branch -/

theorem set_append_cons_at (A B : List β) (x y : β) (p : Nat) (hp : p = A.length) :
    (A ++ x :: B).set p y = A ++ y :: B := by
  subst hp
  exact set_append_length_cons A B x y

theorem eraseIdx_append_cons_at (A B : List β) (x : β) (p : Nat) (hp : p = A.length) :
    (A ++ x :: B).eraseIdx p = A ++ B := by
  subst hp
  exact eraseIdx_append_length_cons A B x

theorem cellsFrom_set_payload (Y : List (Diff α)) (p : Nat) (rk : ListDiff) (ri : Nat)
    (w v : α) (i : Nat) (hG : Y[p]? = some (rk, ri, w)) (hrk : rk ≠ ListDiff.DELETE)
    (htr : trackRun ((Y.drop (p + 1)).map dropPayload) ri = some i)
    (U W : List (Cell α)) (hW : cellsFrom Y U = some W) :
    cellsFrom (Y.set p (rk, ri, v)) U = some (W.set i (Sum.inr v)) := by
  obtain ⟨U₁, U₂, hA, hOp, hSuf⟩ := cellsFrom_split_slot Y p (rk, ri, w) hG U W hW
  have hset : Y.set p (rk, ri, v) = Y.take p ++ (rk, ri, v) :: Y.drop (p + 1) := by
    conv_lhs => rw [list_decomp_at Y p (rk, ri, w) hG]
    exact set_append_cons_at _ _ _ _ p (by
      rw [List.length_take]
      have hp : p < Y.length := by
        by_contra hc
        rw [List.getElem?_eq_none (by omega)] at hG
        exact Option.noConfusion hG
      omega)
  rw [hset, cellsFrom_append]
  simp only [cellsFrom_cons]
  rw [hA]
  simp only [Option.some_bind]
  cases rk with
  | DELETE => exact absurd rfl hrk
  | INSERT =>
    simp only [applyCellOp] at hOp
    split_ifs at hOp with hri
    have hU₂ := Option.some.inj hOp
    rw [show applyCellOp (ListDiff.INSERT, ri, v) U₁ =
        some (U₁.insertIdx ri (Sum.inr v)) by simp [applyCellOp, hri]]
    simp only [Option.some_bind]
    have hswap : U₁.insertIdx ri (Sum.inr v) = U₂.set ri (Sum.inr v) := by
      rw [← hU₂, set_insertIdx_same U₁ (Sum.inr v) (Sum.inr w) ri hri]
    rw [hswap]
    rw [setSim (Y.drop (p + 1)) ri i U₂ (Sum.inr v) htr
      (by rw [← hU₂, List.length_insertIdx ri U₁ hri]; omega)]
    rw [hSuf]
    rfl
  | REPLACE =>
    simp only [applyCellOp] at hOp
    split_ifs at hOp with hri
    have hU₂ := Option.some.inj hOp
    rw [show applyCellOp (ListDiff.REPLACE, ri, v) U₁ =
        some (U₁.set ri (Sum.inr v)) by simp [applyCellOp, hri]]
    simp only [Option.some_bind]
    have hswap : U₁.set ri (Sum.inr v) = U₂.set ri (Sum.inr v) := by
      rw [← hU₂, List.set_set]
    rw [hswap]
    rw [setSim (Y.drop (p + 1)) ri i U₂ (Sum.inr v) htr
      (by rw [← hU₂, List.length_set]; omega)]
    rw [hSuf]
    rfl

theorem compactInv_replace_pair (P : List (Diff α)) (st : CompactState α)
    (a : Nat) (v : α) (p : Nat) (rk : ListDiff) (ri : Nat) (w : α)
    (h : CompactInv P st)
    (hM : st.opIndexToCompactedIndex a = some p)
    (hG : st.compacted[p]? = some (rk, ri, w)) (hrk : rk ≠ ListDiff.DELETE) :
    CompactInv (P ++ [(ListDiff.REPLACE, a, v)])
      { st with compacted := st.compacted.set p (rk, ri, v) } := by
  obtain ⟨hE, hB⟩ := h
  have hplen : p < st.compacted.length := by
    by_contra hc
    rw [List.getElem?_eq_none (by omega)] at hG
    exact Option.noConfusion hG
  obtain ⟨opj, hopj, hdisj⟩ := hB a p hM
  have hopj2 : opj = (rk, ri, w) := by
    rw [hopj] at hG
    exact Option.some.inj hG
  subst hopj2
  have htr : trackRun ((st.compacted.drop (p + 1)).map dropPayload) ri = some a := by
    cases hdisj with
    | inl hdel => exact absurd hdel hrk
    | inr ht => exact ht
  constructor
  · intro L hsome
    rw [cells_concat] at hsome ⊢
    cases hP : cells P L with
    | none =>
      rw [hP] at hsome
      exact absurd hsome (by simp)
    | some T =>
      rw [hP] at hsome
      simp only [Option.some_bind] at hsome ⊢
      have hYT : cells st.compacted L = some T := by
        rw [hE L (by rw [hP]; simp), hP]
      simp only [applyCellOp] at hsome ⊢
      split_ifs at hsome ⊢ with ha
      · exact cellsFrom_set_payload st.compacted p rk ri w v a hG hrk htr
          (canonCells L) T hYT
      · exact absurd hsome (by simp)
  · intro i j hij
    obtain ⟨op₂, hop₂, hd₂⟩ := hB i j hij
    by_cases hjp : j = p
    · subst hjp
      have hop₂2 : op₂ = (rk, ri, w) := by
        rw [hop₂] at hG
        exact Option.some.inj hG
      subst hop₂2
      refine ⟨(rk, ri, v), ?_, ?_⟩
      · show (st.compacted.set j (rk, ri, v))[j]? = some (rk, ri, v)
        rw [List.getElem?_set, if_pos rfl, if_pos hplen]
      · rw [drop_set_lt _ _ _ _ (by omega)]
        cases hd₂ with
        | inl hdel => exact Or.inl hdel
        | inr htr₂ => exact Or.inr htr₂
    · refine ⟨op₂, ?_, ?_⟩
      · show (st.compacted.set p (rk, ri, v))[j]? = some op₂
        rw [List.getElem?_set, if_neg (fun hcon => hjp hcon.symm)]
        exact hop₂
      · cases hd₂ with
        | inl hdel => exact Or.inl hdel
        | inr htr₂ =>
          refine Or.inr ?_
          rw [List.map_drop, map_dropPayload_set st.compacted p rk ri v w hG,
            ← List.map_drop]
          exact htr₂

/-! ## The DELETE-pairs-REPLACE branch -/

theorem trackRun_eraseReplace (S : List (ListDiff × Nat)) :
    ∀ (q b d i : Nat), S[q]? = some (ListDiff.REPLACE, b) → trackRun S d = some i →
      trackRun (S.eraseIdx q) d = some i := by
  induction S with
  | nil =>
    intro q b d i hq ht
    exact absurd hq (by simp)
  | cons ka S ih =>
    intro q b d i hq ht
    cases q with
    | zero =>
      rw [List.getElem?_cons_zero] at hq
      cases Option.some.inj hq
      simp only [trackRun] at ht
      by_cases hbd : b = d
      · rw [if_pos hbd] at ht
        exact Option.noConfusion ht
      · rw [if_neg hbd] at ht
        exact ht
    | succ q' =>
      rw [List.getElem?_cons_succ] at hq
      obtain ⟨k, x⟩ := ka
      rw [List.eraseIdx_cons_succ]
      cases k with
      | INSERT =>
        simp only [trackRun] at ht ⊢
        exact ih q' b _ i hq ht
      | REPLACE =>
        simp only [trackRun] at ht ⊢
        by_cases hxd : x = d
        · rw [if_pos hxd] at ht
          exact Option.noConfusion ht
        · rw [if_neg hxd] at ht ⊢
          exact ih q' b _ i hq ht
      | DELETE =>
        simp only [trackRun] at ht ⊢
        by_cases hxd : x = d ∨ x + 1 = d
        · rw [if_pos hxd] at ht
          exact Option.noConfusion ht
        · rw [if_neg hxd] at ht ⊢
          exact ih q' b _ i hq ht

theorem compactInv_delete_replace (P : List (Diff α)) (st : CompactState α)
    (a : Nat) (v : α) (p ri : Nat) (w : α)
    (h : CompactInv P st)
    (hM : st.opIndexToCompactedIndex a = some p)
    (hG : st.compacted[p]? = some (ListDiff.REPLACE, ri, w)) :
    CompactInv (P ++ [(ListDiff.DELETE, a, v)])
      (appendOp (ListDiff.DELETE, a, v)
        { compacted := st.compacted.eraseIdx p
          opIndexToCompactedIndex := fun k =>
            if k = a then none
            else (st.opIndexToCompactedIndex k).map
              (fun j => if p ≤ j then j - 1 else j) }) := by
  obtain ⟨hE, hB⟩ := h
  have hplen : p < st.compacted.length := by
    by_contra hc
    rw [List.getElem?_eq_none (by omega)] at hG
    exact Option.noConfusion hG
  obtain ⟨opj, hopj, hdisj⟩ := hB a p hM
  have hopj2 : opj = (ListDiff.REPLACE, ri, w) := by
    rw [hopj] at hG
    exact Option.some.inj hG
  subst hopj2
  have htrA : trackRun ((st.compacted.drop (p + 1)).map dropPayload) ri = some a := by
    cases hdisj with
    | inl hdel => exact absurd hdel (by simp)
    | inr ht => exact ht
  have hB2 : ∀ k j,
      (if k = a then none
       else (st.opIndexToCompactedIndex k).map
         (fun j => if p ≤ j then j - 1 else j)) = some j →
      BindingOk (st.compacted.eraseIdx p) k j := by
    intro k j hkj
    by_cases hka : k = a
    · rw [if_pos hka] at hkj
      exact Option.noConfusion hkj
    · rw [if_neg hka] at hkj
      obtain ⟨s, hMk, hadj⟩ := (Option.map_eq_some').mp hkj
      obtain ⟨op_s, hop_s, hd_s⟩ := hB k s hMk
      have hsp : s ≠ p := by
        intro hsp
        subst hsp
        have hop2 : op_s = (ListDiff.REPLACE, ri, w) := by
          rw [hop_s] at hG
          exact Option.some.inj hG
        subst hop2
        cases hd_s with
        | inl hdel => exact ListDiff.noConfusion hdel
        | inr htk =>
          rw [htk] at htrA
          exact hka (Option.some.inj htrA)
      by_cases hslt : s < p
      · rw [if_neg (by omega : ¬ p ≤ s)] at hadj
        subst hadj
        refine ⟨op_s, ?_, ?_⟩
        · rw [List.getElem?_eraseIdx, if_pos (by omega)]
          exact hop_s
        · cases hd_s with
          | inl hdel => exact Or.inl hdel
          | inr htr_s =>
            refine Or.inr ?_
            rw [drop_eraseIdx_of_gt st.compacted p (s + 1) (by omega),
              map_eraseIdx_comm]
            have hq : ((st.compacted.drop (s + 1)).map dropPayload)[p - (s + 1)]? =
                some (ListDiff.REPLACE, ri) := by
              rw [List.getElem?_map, List.getElem?_drop,
                show s + 1 + (p - (s + 1)) = p by omega, hG]
              rfl
            exact trackRun_eraseReplace _ _ ri _ _ hq htr_s
      · have hsgt : p < s := by omega
        rw [if_pos (by omega : p ≤ s)] at hadj
        subst hadj
        refine ⟨op_s, ?_, ?_⟩
        · rw [List.getElem?_eraseIdx, if_neg (by omega),
            show s - 1 + 1 = s by omega]
          exact hop_s
        · rw [show s - 1 + 1 = s by omega,
            drop_eraseIdx_of_le st.compacted p s (by omega)]
          exact hd_s
  constructor
  · intro L hsome
    rw [appendOp_compacted, cells_concat]
    rw [cells_concat P (ListDiff.DELETE, a, v) L]
    rw [cells_concat] at hsome
    cases hP : cells P L with
    | none =>
      rw [hP] at hsome
      exact absurd hsome (by simp)
    | some T =>
      rw [hP] at hsome
      simp only [Option.some_bind] at hsome ⊢
      have hYT : cells st.compacted L = some T := by
        rw [hE L (by rw [hP]; simp), hP]
      obtain ⟨U₁, U₂, hA, hOp, hSuf⟩ :=
        cellsFrom_split_slot st.compacted p (ListDiff.REPLACE, ri, w) hG
          (canonCells L) T hYT
      simp only [applyCellOp] at hOp
      split_ifs at hOp with hri
      have hU₂ := Option.some.inj hOp
      have hsim := setSim (st.compacted.drop (p + 1)) ri a U₁ (Sum.inr w) htrA hri
      rw [hU₂, hSuf] at hsim
      obtain ⟨T₀, hT₀, hTset⟩ := (Option.map_eq_some').mp hsim.symm
      have herase : st.compacted.eraseIdx p =
          st.compacted.take p ++ st.compacted.drop (p + 1) := by
        conv_lhs => rw [list_decomp_at st.compacted p _ hG]
        exact eraseIdx_append_cons_at _ _ _ p (by rw [List.length_take]; omega)
      show (cells (st.compacted.eraseIdx p) L).bind
          (applyCellOp (ListDiff.DELETE, a, v)) =
        applyCellOp (ListDiff.DELETE, a, v) T
      rw [herase, cells, cellsFrom_append, hA]
      simp only [Option.some_bind]
      rw [hT₀]
      simp only [Option.some_bind, applyCellOp]
      have hlenT : T₀.length = T.length := by
        rw [← hTset, List.length_set]
      split_ifs with h1 h2
      · rw [← hTset, set_eraseIdx_same]
      · exact absurd (by omega : a < T.length) h2
      · exact absurd (by omega : a < T₀.length) h1
      · rfl
  · exact appendOp_bindings (ListDiff.DELETE, a, v) _ hB2

/-! ## The DELETE-pairs-INSERT branch: surviving bindings across the walk -/

theorem updateCompactedTail_cons_eq (d : Nat) (k : ListDiff) (c : Nat) (w : α)
    (S : List (Diff α)) :
    updateCompactedTail d ((k, c, w) :: S) =
      (k, if walkD [(k, c)] d ≤ c then c - 1 else c, w) ::
        updateCompactedTail (walkD [(k, c)] d) S := by
  simp only [updateCompactedTail, walkD]
  split_ifs <;> rfl

theorem walk_suffix_binding (B : List (Diff α)) (b a : Nat)
    (htrA : trackRun (B.map dropPayload) b = some a)
    (q : Nat) (ks : ListDiff) (cs : Nat) (ws : α) (hBq : B[q]? = some (ks, cs, ws))
    (k₀ : Nat)
    (hs : ks = ListDiff.DELETE ∨
      trackRun ((B.drop (q + 1)).map dropPayload) cs = some k₀) :
    ∃ cs', (updateCompactedTail b B)[q]? = some (ks, cs', ws) ∧
      (ks = ListDiff.DELETE ∨
        trackRun (((updateCompactedTail b B).drop (q + 1)).map dropPayload) cs' =
          some (if a < k₀ then k₀ - 1 else k₀)) := by
  have hqlen : q < B.length := by
    by_contra hc
    rw [List.getElem?_eq_none (by omega)] at hBq
    exact Option.noConfusion hBq
  have hdecB := list_decomp_at B q (ks, cs, ws) hBq
  have hlenB₁ : (B.take q).length = q := by rw [List.length_take]; omega
  have hW : updateCompactedTail b B =
      updateCompactedTail b (B.take q) ++
        updateCompactedTail (walkD ((B.take q).map dropPayload) b)
          ((ks, cs, ws) :: B.drop (q + 1)) := by
    conv_lhs => rw [hdecB]
    exact updateCompactedTail_append _ _ b
  have hlenW₁ : (updateCompactedTail b (B.take q)).length = q := by
    rw [updateCompactedTail_length, hlenB₁]
  rw [hdecB, List.map_append, trackRun_append] at htrA
  cases h1 : trackRun ((B.take q).map dropPayload) b with
  | none =>
    rw [h1] at htrA
    exact absurd htrA (by simp)
  | some m₁ =>
    rw [h1] at htrA
    simp only [Option.some_bind, List.map_cons] at htrA
    have hd₁ : walkD ((B.take q).map dropPayload) b = m₁ := trackRun_walkD _ _ _ h1
    rw [hd₁, updateCompactedTail_cons_eq] at hW
    have hWq : (updateCompactedTail b B)[q]? =
        some (ks, if walkD [(ks, cs)] m₁ ≤ cs then cs - 1 else cs, ws) := by
      rw [hW, List.getElem?_append, if_neg (by rw [hlenW₁]; omega), hlenW₁,
        Nat.sub_self, List.getElem?_cons_zero]
    have hWdrop : (updateCompactedTail b B).drop (q + 1) =
        updateCompactedTail (walkD [(ks, cs)] m₁) (B.drop (q + 1)) := by
      rw [hW, show q + 1 = (updateCompactedTail b (B.take q)).length + 1 by
        rw [hlenW₁]]
      rw [List.drop_append 1, List.drop_succ_cons, List.drop_zero]
    refine ⟨_, hWq, ?_⟩
    cases hs with
    | inl hdel => exact Or.inl hdel
    | inr htr_s =>
      refine Or.inr ?_
      rw [hWdrop]
      cases ks with
      | INSERT =>
        simp only [dropPayload, trackRun] at htrA
        by_cases hcm : cs ≤ m₁
        · rw [if_pos hcm] at htrA
          rw [show walkD [(ListDiff.INSERT, cs)] m₁ = m₁ + 1 by simp [walkD, hcm]]
          rw [if_neg (by omega : ¬ m₁ + 1 ≤ cs)]
          have hjoint := trackRun_fix_pair (B.drop (q + 1)) (m₁ + 1) cs a k₀
            (by omega) htrA htr_s
          rw [if_neg (by omega : ¬ m₁ + 1 < cs)] at hjoint
          exact hjoint
        · rw [if_neg hcm] at htrA
          rw [show walkD [(ListDiff.INSERT, cs)] m₁ = m₁ by simp [walkD, hcm]]
          rw [if_pos (by omega : m₁ ≤ cs)]
          have hjoint := trackRun_fix_pair (B.drop (q + 1)) m₁ cs a k₀
            (by omega) htrA htr_s
          rw [if_pos (by omega : m₁ < cs)] at hjoint
          exact hjoint
      | REPLACE =>
        simp only [dropPayload, trackRun] at htrA
        have hne0 : ¬ cs = m₁ := by
          intro hcon
          rw [if_pos hcon] at htrA
          exact Option.noConfusion htrA
        rw [if_neg hne0] at htrA
        rw [show walkD [(ListDiff.REPLACE, cs)] m₁ = m₁ by simp [walkD]]
        have hjoint := trackRun_fix_pair (B.drop (q + 1)) m₁ cs a k₀
          (fun hcon => hne0 hcon.symm) htrA htr_s
        by_cases hor : m₁ ≤ cs
        · rw [if_pos hor]
          rw [if_pos (by omega : m₁ < cs)] at hjoint
          exact hjoint
        · rw [if_neg hor]
          rw [if_neg (by omega : ¬ m₁ < cs)] at hjoint
          exact hjoint
      | DELETE =>
        simp only [dropPayload, trackRun] at htrA
        have hg : ¬(cs = m₁ ∨ cs + 1 = m₁) := by
          intro hcon
          rw [if_pos hcon] at htrA
          exact Option.noConfusion htrA
        rw [if_neg hg] at htrA
        push_neg at hg
        by_cases hcm : cs < m₁
        · rw [if_pos hcm] at htrA
          rw [show walkD [(ListDiff.DELETE, cs)] m₁ = m₁ - 1 by simp [walkD, hcm]]
          rw [if_neg (by omega : ¬ m₁ - 1 ≤ cs)]
          have hjoint := trackRun_fix_pair (B.drop (q + 1)) (m₁ - 1) cs a k₀
            (by omega) htrA htr_s
          rw [if_neg (by omega : ¬ m₁ - 1 < cs)] at hjoint
          exact hjoint
        · rw [if_neg hcm] at htrA
          rw [show walkD [(ListDiff.DELETE, cs)] m₁ = m₁ by simp [walkD, hcm]]
          rw [if_pos (by omega : m₁ ≤ cs)]
          have hjoint := trackRun_fix_pair (B.drop (q + 1)) m₁ cs a k₀
            (by omega) htrA htr_s
          rw [if_pos (by omega : m₁ < cs)] at hjoint
          exact hjoint

/-- A surviving helper-map binding stays sound across the INSERT-removal branch:
its slot shifts over the removed record and its key shifts over the removed
output position. -/
theorem delete_insert_binding (Y : List (Diff α)) (a p b : Nat) (w : α)
    (hG : Y[p]? = some (ListDiff.INSERT, b, w))
    (htrA : trackRun ((Y.drop (p + 1)).map dropPayload) b = some a)
    (k₀ s : Nat) (hk₀ : k₀ ≠ a)
    (op_s : Diff α) (hop_s : Y[s]? = some op_s)
    (hd_s : op_s.1 = ListDiff.DELETE ∨
      trackRun ((Y.drop (s + 1)).map dropPayload) op_s.2.1 = some k₀) :
    BindingOk (Y.take p ++ updateCompactedTail b (Y.drop (p + 1)))
      (if a < k₀ then k₀ - 1 else k₀) (if p ≤ s then s - 1 else s) := by
  have hplen : p < Y.length := by
    by_contra hc
    rw [List.getElem?_eq_none (by omega)] at hG
    exact Option.noConfusion hG
  have hslen : s < Y.length := by
    by_contra hc
    rw [List.getElem?_eq_none (by omega)] at hop_s
    exact Option.noConfusion hop_s
  have hAlen : (Y.take p).length = p := by rw [List.length_take]; omega
  have hsp : s ≠ p := by
    intro hcon
    subst hcon
    have hop2 : op_s = (ListDiff.INSERT, b, w) := by
      rw [hop_s] at hG
      exact Option.some.inj hG
    subst hop2
    cases hd_s with
    | inl hdel => exact ListDiff.noConfusion hdel
    | inr htk =>
      rw [htk] at htrA
      exact hk₀ (Option.some.inj htrA)
  by_cases hslt : s < p
  · rw [if_neg (by omega : ¬ p ≤ s)]
    refine ⟨op_s, ?_, ?_⟩
    · rw [List.getElem?_append, if_pos (by omega : s < (Y.take p).length),
        List.getElem?_take, if_pos hslt]
      exact hop_s
    · cases hd_s with
      | inl hdel => exact Or.inl hdel
      | inr htr_s =>
        refine Or.inr ?_
        have hsuf_old : Y.drop (s + 1) =
            (Y.take p).drop (s + 1) ++ (ListDiff.INSERT, b, w) :: Y.drop (p + 1) := by
          conv_lhs => rw [list_decomp_at Y p _ hG]
          rw [List.drop_append_of_le_length (by omega : s + 1 ≤ (Y.take p).length)]
        rw [hsuf_old, List.map_append, trackRun_append] at htr_s
        have hsuf_new : (Y.take p ++
            updateCompactedTail b (Y.drop (p + 1))).drop (s + 1) =
            (Y.take p).drop (s + 1) ++ updateCompactedTail b (Y.drop (p + 1)) := by
          rw [List.drop_append_of_le_length (by omega : s + 1 ≤ (Y.take p).length)]
        rw [hsuf_new, List.map_append, trackRun_append]
        cases h1 : trackRun (((Y.take p).drop (s + 1)).map dropPayload) op_s.2.1 with
        | none =>
          rw [h1] at htr_s
          exact absurd htr_s (by simp)
        | some e₀ =>
          rw [h1] at htr_s
          simp only [Option.some_bind, List.map_cons, dropPayload, trackRun] at htr_s ⊢
          by_cases hbe : b ≤ e₀
          · rw [if_pos hbe] at htr_s
            have hjoint := trackRun_fix_pair (Y.drop (p + 1)) b (e₀ + 1) a k₀
              (by omega) htrA htr_s
            rw [if_pos (by omega : b < e₀ + 1)] at hjoint
            simp only [Nat.add_sub_cancel] at hjoint
            exact hjoint
          · rw [if_neg hbe] at htr_s
            have hjoint := trackRun_fix_pair (Y.drop (p + 1)) b e₀ a k₀
              (by omega) htrA htr_s
            rw [if_neg (by omega : ¬ b < e₀)] at hjoint
            exact hjoint
  · have hsgt : p < s := by omega
    rw [if_pos (by omega : p ≤ s)]
    obtain ⟨ks, cs, ws⟩ := op_s
    have hBq : (Y.drop (p + 1))[s - p - 1]? = some (ks, cs, ws) := by
      rw [List.getElem?_drop, show p + 1 + (s - p - 1) = s by omega]
      exact hop_s
    have hd_s' : ks = ListDiff.DELETE ∨
        trackRun (((Y.drop (p + 1)).drop (s - p - 1 + 1)).map dropPayload) cs =
          some k₀ := by
      rw [List.drop_drop, show p + 1 + (s - p - 1 + 1) = s + 1 by omega]
      exact hd_s
    obtain ⟨cs', hWq, hdisj'⟩ :=
      walk_suffix_binding (Y.drop (p + 1)) b a htrA (s - p - 1) ks cs ws hBq k₀ hd_s'
    refine ⟨(ks, cs', ws), ?_, ?_⟩
    · rw [List.getElem?_append, if_neg (by omega : ¬ s - 1 < (Y.take p).length),
        hAlen, show s - 1 - p = s - p - 1 by omega]
      exact hWq
    · cases hdisj' with
      | inl hdel => exact Or.inl hdel
      | inr htr' =>
        refine Or.inr ?_
        rw [show s - 1 + 1 = s by omega,
          show s = (Y.take p).length + (s - p - 1 + 1) by rw [hAlen]; omega,
          List.drop_append]
        exact htr'

theorem compactInv_delete_insert (P : List (Diff α)) (st : CompactState α)
    (a : Nat) (v : α) (p b : Nat) (w : α)
    (h : CompactInv P st)
    (hM : st.opIndexToCompactedIndex a = some p)
    (hG : st.compacted[p]? = some (ListDiff.INSERT, b, w)) :
    CompactInv (P ++ [(ListDiff.DELETE, a, v)])
      { compacted := (updateCompactedOnDelete b p st.compacted).eraseIdx p
        opIndexToCompactedIndex := fun k =>
          if k < a then
            (if k = a then none
             else (st.opIndexToCompactedIndex k).map
               (fun j => if p ≤ j then j - 1 else j))
          else
            (if k + 1 = a then none
             else (st.opIndexToCompactedIndex (k + 1)).map
               (fun j => if p ≤ j then j - 1 else j)) } := by
  obtain ⟨hE, hB⟩ := h
  have hplen : p < st.compacted.length := by
    by_contra hc
    rw [List.getElem?_eq_none (by omega)] at hG
    exact Option.noConfusion hG
  obtain ⟨opj, hopj, hdisj⟩ := hB a p hM
  have hopj2 : opj = (ListDiff.INSERT, b, w) := by
    rw [hopj] at hG
    exact Option.some.inj hG
  subst hopj2
  have htrA : trackRun ((st.compacted.drop (p + 1)).map dropPayload) b = some a := by
    cases hdisj with
    | inl hdel => exact absurd hdel (by simp)
    | inr ht => exact ht
  have hY' : (updateCompactedOnDelete b p st.compacted).eraseIdx p =
      st.compacted.take p ++ updateCompactedTail b (st.compacted.drop (p + 1)) := by
    rw [updateCompactedOnDelete,
      List.eraseIdx_append_of_lt_length (by rw [List.length_take]; omega),
      take_succ_eraseIdx]
  constructor
  · intro L hsome
    show cells ((updateCompactedOnDelete b p st.compacted).eraseIdx p) L =
      cells (P ++ [(ListDiff.DELETE, a, v)]) L
    rw [hY', cells_concat P (ListDiff.DELETE, a, v) L]
    rw [cells_concat] at hsome
    cases hP : cells P L with
    | none =>
      rw [hP] at hsome
      exact absurd hsome (by simp)
    | some T =>
      rw [hP] at hsome
      simp only [Option.some_bind] at hsome ⊢
      have hYT : cells st.compacted L = some T := by
        rw [hE L (by rw [hP]; simp), hP]
      obtain ⟨U₁, U₂, hA, hOp, hSuf⟩ :=
        cellsFrom_split_slot st.compacted p (ListDiff.INSERT, b, w) hG
          (canonCells L) T hYT
      simp only [applyCellOp] at hOp
      split_ifs at hOp with hb
      have hU₂ := Option.some.inj hOp
      have hsim := walkSim (st.compacted.drop (p + 1)) b a U₂ htrA
        (by rw [← hU₂, List.length_insertIdx b U₁ hb]; omega)
      rw [hSuf] at hsim
      rw [← hU₂, List.eraseIdx_insertIdx] at hsim
      simp only [Option.map_some'] at hsim
      simp only [applyCellOp] at hsome ⊢
      split_ifs at hsome ⊢ with ha
      · rw [cells, cellsFrom_append, hA]
        simp only [Option.some_bind]
        exact hsim
      · exact absurd hsome (by simp)
  · intro k j hkj
    simp only at hkj
    by_cases hk : k < a
    · rw [if_pos hk, if_neg (by omega : ¬ k = a)] at hkj
      obtain ⟨s, hMk, hadj⟩ := (Option.map_eq_some').mp hkj
      obtain ⟨op_s, hop_s, hd_s⟩ := hB k s hMk
      have hbind := delete_insert_binding st.compacted a p b w hG htrA k s
        (by omega) op_s hop_s hd_s
      rw [if_neg (by omega : ¬ a < k), hadj] at hbind
      show BindingOk ((updateCompactedOnDelete b p st.compacted).eraseIdx p) k j
      rw [hY']
      exact hbind
    · rw [if_neg hk, if_neg (by omega : ¬ k + 1 = a)] at hkj
      obtain ⟨s, hMk, hadj⟩ := (Option.map_eq_some').mp hkj
      obtain ⟨op_s, hop_s, hd_s⟩ := hB (k + 1) s hMk
      have hbind := delete_insert_binding st.compacted a p b w hG htrA (k + 1) s
        (by omega) op_s hop_s hd_s
      rw [if_pos (by omega : a < k + 1), Nat.add_sub_cancel, hadj] at hbind
      show BindingOk ((updateCompactedOnDelete b p st.compacted).eraseIdx p) k j
      rw [hY']
      exact hbind

/-! ## Assembling the compaction invariant and claim C1 -/

theorem compactInv_step (P : List (Diff α)) (st : CompactState α) (op : Diff α)
    (h : CompactInv P st) : CompactInv (P ++ [op]) (compactStep st op) := by
  obtain ⟨k, i, v⟩ := op
  cases k with
  | INSERT =>
    rw [compactStep_insert_eq]
    exact compactInv_appendOp P st _ h
  | REPLACE =>
    rw [compactStep_replace_eq]
    cases hM : st.opIndexToCompactedIndex i with
    | none =>
      rw [performReplace_append_none _ _ hM]
      exact compactInv_appendOp P st _ h
    | some p =>
      obtain ⟨opj, hopj, _⟩ := h.2 i p hM
      obtain ⟨rk, ri, w⟩ := opj
      cases rk with
      | DELETE =>
        rw [performReplace_append_delete _ _ p ri w hM hopj]
        exact compactInv_appendOp P st _ h
      | INSERT =>
        rw [performReplace_pair _ _ p _ ri w hM hopj (by simp)]
        exact compactInv_replace_pair P st i v p _ ri w h hM hopj (by simp)
      | REPLACE =>
        rw [performReplace_pair _ _ p _ ri w hM hopj (by simp)]
        exact compactInv_replace_pair P st i v p _ ri w h hM hopj (by simp)
  | DELETE =>
    rw [compactStep_delete_eq]
    cases hM : st.opIndexToCompactedIndex i with
    | none =>
      rw [performDelete_append_none _ _ hM]
      exact compactInv_appendOp P st _ h
    | some p =>
      obtain ⟨opj, hopj, _⟩ := h.2 i p hM
      obtain ⟨rk, ri, w⟩ := opj
      cases rk with
      | DELETE =>
        rw [performDelete_append_delete _ _ p ri w hM hopj]
        exact compactInv_appendOp P st _ h
      | REPLACE =>
        rw [performDelete_replace_pair _ _ p ri w hM hopj]
        exact compactInv_delete_replace P st i v p ri w h hM hopj
      | INSERT =>
        rw [performDelete_insert_pair _ _ p ri w hM hopj]
        exact compactInv_delete_insert P st i v p ri w h hM hopj

theorem compactInv_foldl (X : List (Diff α)) :
    ∀ (P : List (Diff α)) (st : CompactState α), CompactInv P st →
      CompactInv (P ++ X) (X.foldl compactStep st) := by
  induction X with
  | nil =>
    intro P st h
    simpa using h
  | cons op X ih =>
    intro P st h
    rw [List.foldl_cons]
    have h2 := ih (P ++ [op]) (compactStep st op) (compactInv_step P st op h)
    rw [List.append_assoc] at h2
    simpa using h2

theorem compactInv_init : CompactInv ([] : List (Diff α)) ⟨[], fun _ => none⟩ := by
  constructor
  · intro L _
    rfl
  · intro i j hij
    exact Option.noConfusion hij

theorem compact_cells (X : List (Diff α)) (L : Nat) (hsome : (cells X L).isSome) :
    cells (compact_list_diffs X) L = cells X L := by
  have h := compactInv_foldl X [] ⟨[], fun _ => none⟩ compactInv_init
  rw [List.nil_append] at h
  exact h.1 L hsome

/-- C1: Sequence-compaction correctness. For every finite list X of sequence
diffs that is valid with respect to a non-empty starting sequence S0 (its
replay succeeds), replaying compact_list_diffs X on S0 yields the same final
sequence as replaying X, and the compacted list is no longer than X. -/
theorem compact_list_diffs_correct (X : List (Diff α)) (S0 : List α)
    (hne : S0 ≠ []) (hv : (applyListDiffs X S0).isSome) :
    applyListDiffs (compact_list_diffs X) S0 = applyListDiffs X S0 ∧
      (compact_list_diffs X).length ≤ X.length := by
  refine ⟨?_, compact_list_diffs_length_le X⟩
  rcases cellsFrom_transfer S0 X (canonCells S0.length) S0 (cellsRel_canon S0) with
    ⟨hnone, hnone'⟩ | ⟨W, T, hW, hT, hrel⟩
  · rw [hnone'] at hv
    exact absurd hv (by simp)
  · have hX : cells X S0.length = some W := hW
    have hcomp : cells (compact_list_diffs X) S0.length = some W := by
      rw [compact_cells X S0.length (by rw [hX]; rfl)]
      exact hX
    rcases cellsFrom_transfer S0 (compact_list_diffs X) (canonCells S0.length) S0
        (cellsRel_canon S0) with
      ⟨hcn, hcn'⟩ | ⟨W', T', hW', hT', hrel'⟩
    · rw [cells] at hcomp
      rw [hcn] at hcomp
      exact Option.noConfusion hcomp
    · have hWW : W' = W := by
        rw [cells] at hcomp
        rw [hW'] at hcomp
        exact Option.some.inj hcomp
      subst hWW
      rw [hT, hT']
      exact congrArg some (cellsRel_fn hrel' hrel)

theorem compact_list_diffs_correct_witness :
    (([1] : List Nat) ≠ [] ∧
      (applyListDiffs [(ListDiff.INSERT, 0, 5), (ListDiff.DELETE, 0, 0)]
        ([1] : List Nat)).isSome = true) ∧
    (applyListDiffs
        (compact_list_diffs [(ListDiff.INSERT, 0, 5), (ListDiff.DELETE, 0, 0)])
        ([1] : List Nat) =
      applyListDiffs [(ListDiff.INSERT, 0, 5), (ListDiff.DELETE, 0, 0)]
        ([1] : List Nat) ∧
      (compact_list_diffs
        [(ListDiff.INSERT, 0, 5), (ListDiff.DELETE, 0, 0)]).length ≤ 2) :=
  ⟨⟨by decide, by decide⟩,
    compact_list_diffs_correct [(ListDiff.INSERT, 0, 5), (ListDiff.DELETE, 0, 0)]
      [1] (by decide) (by decide)⟩

end Difftrack
